import Mathlib

/-!
Verification of the glob-based file-selection and tree-materialization engine of
`build_tools/_therock_utils/pattern_match.py` (classes `RecursiveGlobPattern`,
`MatchPredicate`, `PatternMatcher`).

The development is a shallow embedding:
* the regular expressions produced by `RecursiveGlobPattern.__init__` are modelled
  by a small regex type `RE` together with a Brzozowski-derivative matcher
  (`rmatch`), proved correct against a declarative language semantics (`Matches`);
* Python's `re.escape` and the chain of `str.replace` calls are modelled
  character-for-character (`reEscape`, `globToRegexString`), and the resulting
  regex text is parsed back into `RE` by `parseRegexString`;
* the filesystem effects of `PatternMatcher.copy_to` are modelled as a state
  transformer over an abstract destination tree (`DestFS`), with an operation
  log recording the unlink/hardlink/copy/symlink/mkdir operations performed.

Modelling notes (environment semantics, not repository code):
* the regex anchors `^`/`$` are modelled as strict start/end of string
  (Python's `$` additionally matches before a trailing newline; path strings
  with a trailing newline are outside the scope of this model);
* `Path.exists`/`os.stat` follow symlinks; the model does not resolve symlink
  targets (they may point outside the modelled destination tree), so a symlink
  occupant is treated as not satisfying `exists` and as having no stat identity;
  directories are given no stat identity (a freshly created directory is assumed
  not to collide with a source file inode).
-/

namespace TheRock

/-! ## Regular expressions with Brzozowski derivatives

The regex dialect is exactly what the glob compiler emits: literal characters,
the any-character class `.` (which in Python matches every character except a
newline), the character class `[^/]`, groups with `?` and `*` postfix, and
sequencing.  `alt` expresses the optional groups `(...)?`. -/

inductive RE : Type
  | emp : RE
  | eps : RE
  | chr : Char → RE
  | cls : Bool → List Char → RE
  | dot : RE
  | seq : RE → RE → RE
  | alt : RE → RE → RE
  | star : RE → RE
deriving DecidableEq

/-- Does the character class `cls neg cs` accept character `x`? -/
def clsAccepts (neg : Bool) (cs : List Char) (x : Char) : Bool :=
  if neg then !(cs.contains x) else cs.contains x

/-- Does the regex accept the empty string? -/
def nullable : RE → Bool
  | .emp => false
  | .eps => true
  | .chr _ => false
  | .cls _ _ => false
  | .dot => false
  | .seq a b => nullable a && nullable b
  | .alt a b => nullable a || nullable b
  | .star _ => true

/-- Brzozowski derivative of a regex with respect to one character. -/
def deriv : RE → Char → RE
  | .emp, _ => .emp
  | .eps, _ => .emp
  | .chr c, x => if x = c then .eps else .emp
  | .cls neg cs, x => if clsAccepts neg cs x then .eps else .emp
  | .dot, x => if x = '\n' then .emp else .eps
  | .seq a b, x =>
      if nullable a then .alt (.seq (deriv a x) b) (deriv b x)
      else .seq (deriv a x) b
  | .alt a b, x => .alt (deriv a x) (deriv b x)
  | .star a, x => .seq (deriv a x) (.star a)

/-- The derivative-based matcher: full-string match of `s` against `r`. -/
def rmatch (r : RE) (s : List Char) : Bool :=
  nullable (s.foldl deriv r)

/-- Declarative language semantics of the regex dialect. -/
inductive Matches : RE → List Char → Prop
  | eps : Matches .eps []
  | chr (c : Char) : Matches (.chr c) [c]
  | cls {neg cs x} : clsAccepts neg cs x = true → Matches (.cls neg cs) [x]
  | dot {x} : x ≠ '\n' → Matches .dot [x]
  | seqM {a b s t} : Matches a s → Matches b t → Matches (.seq a b) (s ++ t)
  | altL {a b s} : Matches a s → Matches (.alt a b) s
  | altR {a b s} : Matches b s → Matches (.alt a b) s
  | starNil {a} : Matches (.star a) []
  | starCons {a s t} : Matches a s → Matches (.star a) t → Matches (.star a) (s ++ t)

theorem matches_emp_inv {s} (h : Matches .emp s) : False := by
  cases h

theorem matches_eps_inv {s} (h : Matches .eps s) : s = [] := by
  cases h; rfl

theorem matches_chr_inv {c s} (h : Matches (.chr c) s) : s = [c] := by
  cases h; rfl

theorem matches_cls_inv {neg cs s} (h : Matches (.cls neg cs) s) :
    ∃ x, s = [x] ∧ clsAccepts neg cs x = true := by
  cases h with
  | cls hx => exact ⟨_, rfl, hx⟩

theorem matches_dot_inv {s} (h : Matches .dot s) : ∃ x, s = [x] ∧ x ≠ '\n' := by
  cases h with
  | dot hx => exact ⟨_, rfl, hx⟩

theorem matches_seq_inv {a b s} (h : Matches (.seq a b) s) :
    ∃ u v, s = u ++ v ∧ Matches a u ∧ Matches b v := by
  cases h with
  | seqM hu hv => exact ⟨_, _, rfl, hu, hv⟩

theorem matches_alt_inv {a b s} (h : Matches (.alt a b) s) :
    Matches a s ∨ Matches b s := by
  cases h with
  | altL h => exact Or.inl h
  | altR h => exact Or.inr h

theorem matches_star_inv {a s} (h : Matches (.star a) s) :
    s = [] ∨ ∃ u v, s = u ++ v ∧ u ≠ [] ∧ Matches a u ∧ Matches (.star a) v := by
  generalize hr : RE.star a = r at h
  induction h with
  | eps => exact absurd hr (by simp)
  | chr c => exact absurd hr (by simp)
  | cls hx => exact absurd hr (by simp)
  | dot hx => exact absurd hr (by simp)
  | seqM hu hv ihu ihv => exact absurd hr (by simp)
  | altL h ih => exact absurd hr (by simp)
  | altR h ih => exact absurd hr (by simp)
  | starNil => exact Or.inl rfl
  | starCons hu hv ihu ihv =>
      cases hr
      rename_i u v
      by_cases hu0 : u = []
      · subst hu0
        simpa using ihv rfl
      · exact Or.inr ⟨u, v, rfl, hu0, hu, hv⟩

theorem nullable_iff (r : RE) : nullable r = true ↔ Matches r [] := by
  induction r with
  | emp =>
      constructor
      · intro h; cases h
      · intro h; exact (matches_emp_inv h).elim
  | eps =>
      constructor
      · intro h; exact .eps
      · intro h; rfl
  | chr c =>
      constructor
      · intro h; cases h
      · intro h; cases matches_chr_inv h
  | cls neg cs =>
      constructor
      · intro h; cases h
      · intro h
        obtain ⟨x, hx, -⟩ := matches_cls_inv h
        cases hx
  | dot =>
      constructor
      · intro h; cases h
      · intro h
        obtain ⟨x, hx, -⟩ := matches_dot_inv h
        cases hx
  | seq a b iha ihb =>
      simp only [nullable, Bool.and_eq_true]
      constructor
      · rintro ⟨ha, hb⟩
        have := Matches.seqM (iha.mp ha) (ihb.mp hb)
        simpa using this
      · intro h
        obtain ⟨u, v, huv, hu, hv⟩ := matches_seq_inv h
        obtain ⟨hu0, hv0⟩ := List.append_eq_nil.mp huv.symm
        subst hu0; subst hv0
        exact ⟨iha.mpr hu, ihb.mpr hv⟩
  | alt a b iha ihb =>
      simp only [nullable, Bool.or_eq_true]
      constructor
      · rintro (ha | hb)
        · exact .altL (iha.mp ha)
        · exact .altR (ihb.mp hb)
      · intro h
        rcases matches_alt_inv h with ha | hb
        · exact Or.inl (iha.mpr ha)
        · exact Or.inr (ihb.mpr hb)
  | star a iha =>
      constructor
      · intro h; exact .starNil
      · intro h; rfl

theorem deriv_iff (r : RE) (c : Char) : ∀ s, Matches (deriv r c) s ↔ Matches r (c :: s) := by
  induction r with
  | emp =>
      intro s
      simp only [deriv]
      exact ⟨fun h => (matches_emp_inv h).elim, fun h => (matches_emp_inv h).elim⟩
  | eps =>
      intro s
      simp only [deriv]
      exact ⟨fun h => (matches_emp_inv h).elim, fun h => by cases matches_eps_inv h⟩
  | chr d =>
      intro s
      simp only [deriv]
      by_cases hc : c = d
      · subst hc
        simp only [if_pos rfl]
        constructor
        · intro h; rw [matches_eps_inv h]; exact .chr c
        · intro h
          have := matches_chr_inv h
          simp only [List.cons.injEq] at this
          rw [this.2]; exact .eps
      · rw [if_neg hc]
        refine ⟨fun h => (matches_emp_inv h).elim, fun h => ?_⟩
        have := matches_chr_inv h
        simp only [List.cons.injEq] at this
        exact absurd this.1 hc
  | cls neg cs =>
      intro s
      simp only [deriv]
      by_cases hc : clsAccepts neg cs c = true
      · rw [if_pos hc]
        constructor
        · intro h; rw [matches_eps_inv h]; exact .cls hc
        · intro h
          obtain ⟨x, hx, -⟩ := matches_cls_inv h
          simp only [List.cons.injEq] at hx
          rw [hx.2]; exact .eps
      · rw [if_neg hc]
        refine ⟨fun h => (matches_emp_inv h).elim, fun h => ?_⟩
        obtain ⟨x, hx, hacc⟩ := matches_cls_inv h
        simp only [List.cons.injEq] at hx
        exact (hc (hx.1 ▸ hacc)).elim
  | dot =>
      intro s
      simp only [deriv]
      by_cases hc : c = '\n'
      · rw [if_pos hc]
        refine ⟨fun h => (matches_emp_inv h).elim, fun h => ?_⟩
        obtain ⟨x, hx, hne⟩ := matches_dot_inv h
        simp only [List.cons.injEq] at hx
        exact (hne (hx.1 ▸ hc)).elim
      · rw [if_neg hc]
        constructor
        · intro h; rw [matches_eps_inv h]; exact .dot hc
        · intro h
          obtain ⟨x, hx, -⟩ := matches_dot_inv h
          simp only [List.cons.injEq] at hx
          rw [hx.2]; exact .eps
  | seq a b iha ihb =>
      intro s
      simp only [deriv]
      by_cases hn : nullable a = true
      · rw [if_pos hn]
        constructor
        · intro h
          rcases matches_alt_inv h with h1 | h2
          · obtain ⟨u, v, huv, hu, hv⟩ := matches_seq_inv h1
            subst huv
            have := Matches.seqM ((iha u).mp hu) hv
            simpa using this
          · have hb' := (ihb s).mp h2
            have ha0 := (nullable_iff a).mp hn
            have := Matches.seqM ha0 hb'
            simpa using this
        · intro h
          obtain ⟨u, v, huv, hu, hv⟩ := matches_seq_inv h
          cases u with
          | nil =>
              simp only [List.nil_append] at huv
              subst huv
              exact .altR ((ihb s).mpr hv)
          | cons c' u' =>
              simp only [List.cons_append, List.cons.injEq] at huv
              obtain ⟨hc', hs⟩ := huv
              subst hc'; subst hs
              exact .altL (.seqM ((iha u').mpr hu) hv)
      · rw [if_neg hn]
        constructor
        · intro h
          obtain ⟨u, v, huv, hu, hv⟩ := matches_seq_inv h
          subst huv
          have := Matches.seqM ((iha u).mp hu) hv
          simpa using this
        · intro h
          obtain ⟨u, v, huv, hu, hv⟩ := matches_seq_inv h
          cases u with
          | nil =>
              exact absurd ((nullable_iff a).mpr hu) (by simpa using hn)
          | cons c' u' =>
              simp only [List.cons_append, List.cons.injEq] at huv
              obtain ⟨hc', hs⟩ := huv
              subst hc'; subst hs
              exact .seqM ((iha u').mpr hu) hv
  | alt a b iha ihb =>
      intro s
      simp only [deriv]
      constructor
      · intro h
        rcases matches_alt_inv h with h1 | h2
        · exact .altL ((iha s).mp h1)
        · exact .altR ((ihb s).mp h2)
      · intro h
        rcases matches_alt_inv h with h1 | h2
        · exact .altL ((iha s).mpr h1)
        · exact .altR ((ihb s).mpr h2)
  | star a iha =>
      intro s
      simp only [deriv]
      constructor
      · intro h
        obtain ⟨u, v, huv, hu, hv⟩ := matches_seq_inv h
        subst huv
        have := Matches.starCons ((iha u).mp hu) hv
        simpa using this
      · intro h
        rcases matches_star_inv h with h0 | ⟨u, v, huv, hu0, hu, hv⟩
        · cases h0
        · cases u with
          | nil => exact absurd rfl hu0
          | cons c' u' =>
              simp only [List.cons_append, List.cons.injEq] at huv
              obtain ⟨hc', hs⟩ := huv
              subst hc'; subst hs
              exact .seqM ((iha u').mpr hu) hv

theorem rmatch_iff (r : RE) (s : List Char) : rmatch r s = true ↔ Matches r s := by
  induction s generalizing r with
  | nil => exact nullable_iff r
  | cons c s ih =>
      have : rmatch r (c :: s) = rmatch (deriv r c) s := rfl
      rw [this, ih (deriv r c)]
      exact deriv_iff r c s

/-- `avoids c r = true` guarantees that no string matched by `r` contains `c`. -/
def avoids (c : Char) : RE → Bool
  | .emp => true
  | .eps => true
  | .chr d => d != c
  | .cls neg cs => !(clsAccepts neg cs c)
  | .dot => c == '\n'
  | .seq a b => avoids c a && avoids c b
  | .alt a b => avoids c a && avoids c b
  | .star a => avoids c a

theorem avoids_spec {c : Char} {r : RE} {s : List Char}
    (hav : avoids c r = true) (h : Matches r s) : c ∉ s := by
  induction h with
  | eps => simp
  | chr d =>
      simp only [avoids, bne_iff_ne, ne_eq] at hav
      simp [hav]
      intro hc
      exact hav hc.symm
  | cls hx =>
      rename_i neg cs x
      simp only [avoids, Bool.not_eq_true'] at hav
      simp only [List.mem_singleton]
      intro hc
      rw [hc] at hav
      rw [hav] at hx
      cases hx
  | dot hx =>
      rename_i x
      simp only [avoids, beq_iff_eq] at hav
      simp only [List.mem_singleton]
      intro hc
      exact hx (hc ▸ hav)
  | seqM hu hv ihu ihv =>
      rename_i a b u v
      simp only [avoids, Bool.and_eq_true] at hav
      simp only [List.mem_append]
      rintro (hc | hc)
      · exact ihu hav.1 hc
      · exact ihv hav.2 hc
  | altL h ih =>
      simp only [avoids, Bool.and_eq_true] at hav
      exact ih hav.1
  | altR h ih =>
      simp only [avoids, Bool.and_eq_true] at hav
      exact ih hav.2
  | starNil => simp
  | starCons hu hv ihu ihv =>
      rename_i a u v
      simp only [avoids] at hav
      simp only [List.mem_append]
      rintro (hc | hc)
      · exact ihu hav hc
      · exact ihv (by simp only [avoids]; exact hav) hc

/-! ## The glob compiler (`RecursiveGlobPattern.__init__`)

The source builds a regex string with `f"^{re.escape(glob)}$"` followed by five
`str.replace` passes, and compiles it with `re.compile`.  We reproduce the
string transformation exactly and parse the resulting regex text into `RE`. -/

/-- The characters escaped by Python's `re.escape` (CPython `_special_chars_map`). -/
def reSpecialChars : List Char :=
  ['(', ')', '[', ']', '\x7b', '\x7d', '?', '*', '+', '-', '|', '^', '$',
   '\\', '.', '&', '~', '#', ' ', '\t', '\n', '\r', '\x0b', '\x0c']

/-- Model of Python's `re.escape`: prefix every special character with a backslash. -/
def reEscape (s : String) : String :=
  String.mk (s.data.foldr
    (fun c acc => if reSpecialChars.contains c then '\\' :: c :: acc else c :: acc) [])

/-- Python `str.replace` on character lists: scan left to right; at each
position, if the (non-empty) pattern is a prefix, emit the replacement and skip
past the matched occurrence, otherwise copy one character.  The fuel argument
(instantiated with the string length) only drives structural recursion. -/
def replaceGo (pat rep : List Char) : Nat → List Char → List Char
  | _, [] => []
  | 0, s => s
  | fuel + 1, c :: rest =>
      if !pat.isEmpty && pat.isPrefixOf (c :: rest) then
        rep ++ replaceGo pat rep fuel (List.drop (pat.length - 1) rest)
      else
        c :: replaceGo pat rep fuel rest

/-- Model of Python `str.replace` (all occurrences, left to right,
non-overlapping). -/
def strReplace (s pat rep : String) : String :=
  String.mk (replaceGo pat.data rep.data s.data.length s.data)

/-- The regex text built by `RecursiveGlobPattern.__init__`:
anchoring, escape, then the five `str.replace` passes in source order. -/
def globToRegexString (glob : String) : String :=
  let pattern := "^" ++ reEscape glob ++ "$"
  -- Intermediate recursive directory match.
  let pattern := strReplace pattern "/\\*\\*/" "/(.*/)?"
  -- First segment recursive directory match.
  let pattern := strReplace pattern "^\\*\\*/" "^(.*/)?"
  -- Last segment recursive directory match.
  let pattern := strReplace pattern "/\\*\\*$" "(/.*)?$"
  -- Intra-segment * match.
  let pattern := strReplace pattern "\\*" "[^/]*"
  -- Intra-segment ? match.
  let pattern := strReplace pattern "\\?" "[^/]*"
  pattern

/-- Body of a character class: the characters up to the closing bracket. -/
def parseClsBody : List Char → Option (List Char × List Char)
  | [] => none
  | ']' :: rest => some ([], rest)
  | c :: rest => do
      let (body, rest2) ← parseClsBody rest
      pure (c :: body, rest2)

mutual

/-- Parse a maximal sequence of regex items (stops at `)` or end of input). -/
def parseSeq : Nat → List Char → Option (RE × List Char)
  | 0, _ => none
  | _ + 1, [] => some (.eps, [])
  | fuel + 1, cs@(c :: _) =>
      if c = ')' then some (.eps, cs)
      else do
        let (r, cs1) ← parseItem fuel cs
        let (rs, cs2) ← parseSeq fuel cs1
        pure (.seq r rs, cs2)

/-- Parse one atom with an optional `*` or `?` postfix operator. -/
def parseItem : Nat → List Char → Option (RE × List Char)
  | 0, _ => none
  | fuel + 1, cs => do
      let (a, cs1) ← parseAtom fuel cs
      match cs1 with
      | '*' :: rest => pure (.star a, rest)
      | '?' :: rest => pure (.alt .eps a, rest)
      | _ => pure (a, cs1)

/-- Parse a single regex atom: `\c`, `[...]`, `[^...]`, `(...)`, `.`, or a
plain non-metacharacter. -/
def parseAtom : Nat → List Char → Option (RE × List Char)
  | 0, _ => none
  | fuel + 1, cs =>
      match cs with
      | '\\' :: c :: rest => some (.chr c, rest)
      | '[' :: '^' :: rest => do
          let (body, rest2) ← parseClsBody rest
          pure (.cls true body, rest2)
      | '[' :: rest => do
          let (body, rest2) ← parseClsBody rest
          pure (.cls false body, rest2)
      | '(' :: rest => do
          let (r, rest2) ← parseSeq fuel rest
          match rest2 with
          | ')' :: rest3 => pure (r, rest3)
          | _ => none
      | '.' :: rest => some (.dot, rest)
      | c :: rest =>
          if ['\\', '[', ']', '(', ')', '*', '?', '.', '^', '$', '|', '+'].contains c
          then none
          else some (.chr c, rest)
      | [] => none

end

/-- Parse a full anchored regex text `^...$` as produced by `globToRegexString`. -/
def parseRegexString (s : String) : Option RE :=
  match s.data with
  | '^' :: rest =>
      match rest.getLast? with
      | some '$' =>
          match parseSeq (2 * rest.length + 4) rest.dropLast with
          | some (r, []) => some r
          | _ => none
      | _ => none
  | _ => none

/-- Model of `RecursiveGlobPattern`: the glob text and its compiled pattern. -/
structure RecursiveGlobPattern where
  glob : String
  pattern : Option RE
deriving DecidableEq

/-- `RecursiveGlobPattern.__init__`: compile the glob into a matcher. -/
def RecursiveGlobPattern.compile (glob : String) : RecursiveGlobPattern :=
  ⟨glob, parseRegexString (globToRegexString glob)⟩

/-- `RecursiveGlobPattern.matches`: anchored match of the whole relative path.
(`re.Pattern.match` with a pattern of the form `^...$`.) -/
def RecursiveGlobPattern.matches (p : RecursiveGlobPattern) (relpath : String) : Bool :=
  match p.pattern with
  | some r => rmatch r relpath.data
  | none => false

/-- `p.avoidsChar c`: no string accepted by the compiled pattern contains `c`. -/
def RecursiveGlobPattern.avoidsChar (p : RecursiveGlobPattern) (c : Char) : Bool :=
  match p.pattern with
  | some r => avoids c r
  | none => true

theorem matches_avoidsChar {p : RecursiveGlobPattern} {c : Char} {s : String}
    (hav : p.avoidsChar c = true) (h : p.matches s = true) : c ∉ s.data := by
  unfold RecursiveGlobPattern.matches at h
  unfold RecursiveGlobPattern.avoidsChar at hav
  cases hp : p.pattern with
  | none => rw [hp] at h; cases h
  | some r =>
      rw [hp] at h hav
      exact avoids_spec hav ((rmatch_iff r s.data).mp h)

/-! ## The match predicate (`MatchPredicate`) -/

structure MatchPredicate where
  includes : List RecursiveGlobPattern
  excludes : List RecursiveGlobPattern
  force_includes : List RecursiveGlobPattern
deriving DecidableEq

/-- `MatchPredicate.__init__` from raw glob strings. -/
def MatchPredicate.ofGlobs (includes excludes force_includes : List String) :
    MatchPredicate :=
  ⟨includes.map RecursiveGlobPattern.compile,
   excludes.map RecursiveGlobPattern.compile,
   force_includes.map RecursiveGlobPattern.compile⟩

/-- `MatchPredicate.matches`, translated from the source control flow:
force-include loop (early `return True`), include loop with `for`/`else`
(`return False` when non-empty and no pattern matched), exclude loop
(`return False` on match), final `return True`. -/
def MatchPredicate.matches (p : MatchPredicate) (match_path : String) : Bool :=
  if !p.force_includes.isEmpty
      && p.force_includes.any (fun g => g.matches match_path) then
    true
  else if !p.includes.isEmpty
      && !(p.includes.any (fun g => g.matches match_path)) then
    false
  else if p.excludes.any (fun g => g.matches match_path) then
    false
  else
    true

/-- Reference definition of the predicate verdict, written from the spec's
four-step rule (claim C1): force-includes win; else a non-empty include list
must match; else any exclude match rejects; else accept. -/
def MatchPredicate.specVerdict (p : MatchPredicate) (path : String) : Bool :=
  if p.force_includes ≠ [] ∧ ∃ g ∈ p.force_includes, g.matches path = true then
    true
  else if p.includes ≠ [] ∧ ¬∃ g ∈ p.includes, g.matches path = true then
    false
  else if ∃ g ∈ p.excludes, g.matches path = true then
    false
  else
    true

/-! ## The selection index and tree materializer (`PatternMatcher`)

`PatternMatcher.copy_to` walks the selected `(relpath, direntry)` pairs and
mutates the destination tree.  The destination is modelled as a partial map
from `/`-separated relative paths (relative to `destdir`) to nodes; the
environment `Env` supplies the outcomes of the fallible `os.link` and
`shutil.copy2` calls and the inode numbers allocated by fresh copies.  File
content is represented by the `(st_dev, st_ino)` identity: hardlinks share it,
fresh copies receive a fresh identity from the environment. -/

/-- A filesystem node in the destination tree.  Directories carry no stat
identity (a freshly created directory is assumed not to collide with any
source file inode). -/
inductive Node : Type
  | dir : Node
  | symlink : String → Node
  | file : Nat → Nat → Node
deriving DecidableEq

/-- The destination tree: a partial map from relative paths to nodes.  The
`destdir` root itself is implicit (it is created with `mkdir(parents=True,
exist_ok=True)` and always exists during entry processing). -/
def DestFS : Type := String → Option Node

def emptyFS : DestFS := fun _ => none

def setNode (fs : DestFS) (p : String) (n : Node) : DestFS :=
  fun q => if q = p then some n else fs q

def removeNode (fs : DestFS) (p : String) : DestFS :=
  fun q => if q = p then none else fs q

/-- The proper ancestors of a path, top-down: for `"a/b/c"` the list
`["a", "a/b"]` (the prefixes ending just before each `/`). -/
def ancestorsGo (done : List Char) : List Char → List String
  | [] => []
  | c :: rest =>
      if c = '/' then String.mk done.reverse :: ancestorsGo (c :: done) rest
      else ancestorsGo (c :: done) rest

def ancestorsOf (p : String) : List String := ancestorsGo [] p.data

/-- The final path segment (used by the `shutil.copy2` into-directory case:
`os.path.basename` of the source path is the entry name, i.e. the last
segment of the relative path). -/
def baseGo (cur : List Char) : List Char → List Char
  | [] => cur.reverse
  | c :: rest => if c = '/' then baseGo [] rest else baseGo (c :: cur) rest

def baseNameOf (p : String) : String := String.mk (baseGo [] p.data)

/-- One step of `mkdir(exist_ok=True)`: create a directory node only when the
path is vacant (an existing occupant of any kind is left untouched; a non-dir
occupant would make the real call raise, which later operations surface). -/
def mkdirStep (fs : DestFS) (a : String) : DestFS :=
  if (fs a).isSome then fs else setNode fs a .dir

/-- `destpath.parent.mkdir(parents=True, exist_ok=True)`. -/
def mkdirParents (fs : DestFS) (p : String) : DestFS :=
  (ancestorsOf p).foldl mkdirStep fs

/-- `destpath.mkdir(parents=True, exist_ok=True)` (directory entries). -/
def mkdirTree (fs : DestFS) (p : String) : DestFS :=
  mkdirStep (mkdirParents fs p) p

/-- `Path.exists` (follows symlinks; symlink targets are not resolved by the
model, so a symlink occupant reports `false` as for a dangling link). -/
def existsAt (fs : DestFS) (p : String) : Bool :=
  match fs p with
  | some .dir => true
  | some (.file _ _) => true
  | _ => false

/-- `Path.is_symlink`. -/
def isSymlinkAt (fs : DestFS) (p : String) : Bool :=
  match fs p with
  | some (.symlink _) => true
  | _ => false

/-- `os.stat(p).st_ino` for the destination occupant (only regular files have
a modelled stat identity; the code under verification consults only `st_ino`,
not `st_dev`). -/
def statIno (fs : DestFS) (p : String) : Option Nat :=
  match fs p with
  | some (.file _ ino) => some ino
  | _ => none

/-- A scanned source entry: posix relative path plus kind.  Regular files
carry their source `(st_dev, st_ino)` identity; symlinks carry the literal
`os.readlink` target string. -/
inductive EntryKind : Type
  | dir : EntryKind
  | symlink : String → EntryKind
  | file : Nat → Nat → EntryKind
deriving DecidableEq

structure Entry where
  relpath : String
  kind : EntryKind
deriving DecidableEq

/-- Environment of the fallible filesystem calls: whether `os.link` would
succeed at a destination path (for any reason other than the destination
already existing, which the model checks explicitly), whether `shutil.copy2`
would succeed, and the `(st_dev, st_ino)` identity allocated to a fresh copy. -/
structure Env where
  linkOk : String → Bool
  copyOk : String → Bool
  copyId : String → Nat × Nat

/-- Keyword arguments of `copy_to` (the destination prefix is `destprefix`,
concatenated in front of each relative path without a separator). -/
structure CopyArgs where
  pfx : String
  always_copy : Bool
  remove_dest : Bool
deriving DecidableEq

/-- `destdir / PurePosixPath(destprefix + relpath)`, as a path relative to
`destdir`. -/
def destPath (args : CopyArgs) (e : Entry) : String := args.pfx ++ e.relpath

inductive Op : Type
  | rmtreeOp : Op
  | mkdirOp : String → Op
  | unlinkOp : String → Op
  | symlinkOp : String → String → Op
  | linkOp : String → Op
  | copyOp : String → Op
  | skipOp : String → Op
deriving DecidableEq

inductive CopyError : Type
  | permissionError : CopyError
  | isADirectory : String → CopyError
  | notFound : String → CopyError
  | fileExists : String → CopyError
  | copyFailed : String → CopyError
deriving DecidableEq

/-- `os.unlink`: removes a file or symlink; raises on a directory. -/
def unlinkAt (fs : DestFS) (p : String) : Except CopyError DestFS :=
  match fs p with
  | some .dir => .error (.isADirectory p)
  | some _ => .ok (removeNode fs p)
  | none => .error (.notFound p)

/-- The node written by `shutil.copy2`: overwriting an existing regular file
keeps the destination inode (the file is truncated in place); otherwise a
fresh identity is allocated by the environment. -/
def copyNodeAt (env : Env) (fs : DestFS) (p : String) : Node :=
  match fs p with
  | some (.file d i) => .file d i
  | _ => .file (env.copyId p).1 (env.copyId p).2

/-- `shutil.copy2(src, dst, follow_symlinks=False)`: if `dst` is an existing
directory the copy lands at `dst/basename(src)`, otherwise at `dst`. -/
def copy2At (env : Env) (fs : DestFS) (p : String) (srcBase : String) : DestFS :=
  match fs p with
  | some .dir =>
      setNode fs (p ++ "/" ++ srcBase) (copyNodeAt env fs (p ++ "/" ++ srcBase))
  | _ => setNode fs p (copyNodeAt env fs p)

/-- Source lines 153-154 and 186-188: when not resetting the destination and
a file or link occupies the destination path, `os.unlink` it first. -/
def unlinkIfOccupied (args : CopyArgs) (fs : DestFS) (dp : String) :
    Except CopyError (DestFS × List Op) :=
  if !args.remove_dest && (existsAt fs dp || isSymlinkAt fs dp) then
    match unlinkAt fs dp with
    | .error err => .error err
    | .ok fs' => .ok (fs', [Op.unlinkOp dp])
  else
    .ok (fs, [])

/-- The per-entry body of the `copy_to` loop (source lines 143-219), returning
the updated destination tree and the operations performed.  Branch order
follows the source: directory / symlink / regular file; for regular files the
hardlink-identity short-circuit (`continue`), then the conditional unlink,
parent creation, the `os.link` attempt with `OSError` fallback, and the
`shutil.copy2` fallback. -/
def copyEntry (env : Env) (args : CopyArgs) (fs : DestFS) (e : Entry) :
    Except CopyError (DestFS × List Op) :=
  let dp := destPath args e
  match e.kind with
  | .dir => .ok (mkdirTree fs dp, [Op.mkdirOp dp])
  | .symlink target =>
      match unlinkIfOccupied args fs dp with
      | .error err => .error err
      | .ok (fs1, ops1) =>
          let fs2 := mkdirParents fs1 dp
          if (fs2 dp).isSome then
            .error (.fileExists dp)
          else
            .ok (setNode fs2 dp (.symlink target),
                 ops1 ++ [Op.symlinkOp target dp])
  | .file dev ino =>
      if existsAt fs dp && !args.always_copy && (statIno fs dp == some ino) then
        .ok (fs, [Op.skipOp dp])
      else
        match unlinkIfOccupied args fs dp with
        | .error err => .error err
        | .ok (fs1, ops1) =>
            let fs2 := mkdirParents fs1 dp
            if !args.always_copy && (fs2 dp).isNone && env.linkOk dp then
              .ok (setNode fs2 dp (.file dev ino), ops1 ++ [Op.linkOp dp])
            else if env.copyOk dp then
              .ok (copy2At env fs2 dp (baseNameOf e.relpath),
                   ops1 ++ [Op.copyOp dp])
            else
              .error (.copyFailed dp)

/-- The `copy_to` entry loop over the selection, in index iteration order.  A
failure materializing one entry aborts the remaining processing. -/
def copyEntries (env : Env) (args : CopyArgs) :
    List Entry → DestFS → Except CopyError (DestFS × List Op)
  | [], fs => .ok (fs, [])
  | e :: rest, fs =>
      match copyEntry env args fs e with
      | .error err => .error err
      | .ok (fs1, ops1) =>
          match copyEntries env args rest fs1 with
          | .error err => .error err
          | .ok (fs2, ops2) => .ok (fs2, ops1 ++ ops2)

/-- `PatternMatcher.max_attempts`. -/
def maxAttempts : Nat := 5

/-- `PatternMatcher.retry_delay_seconds` (0.2 time-units, as an exact
rational). -/
def retryDelaySeconds : ℚ := 1 / 5

/-- The `shutil.rmtree` retry loop (source lines 120-140): `permFails` is the
number of leading attempts on which `rmtree` raises `PermissionError`.  On
each failure the loop sleeps `retry_delay_seconds * (attempt + 2)` and, if the
attempt was the last one, re-raises.  The result carries the total time slept
(error = the `PermissionError` propagating to the caller). -/
def rmtreeGo (permFails : Nat) : Nat → Nat → ℚ → Except ℚ ℚ
  | _, 0, waited => .ok waited
  | attempt, fuel + 1, waited =>
      if attempt < permFails then
        let waited := waited + retryDelaySeconds * ((attempt : ℚ) + 2)
        if attempt == maxAttempts - 1 then .error waited
        else rmtreeGo permFails (attempt + 1) fuel waited
      else .ok waited

def rmtreeRetry (permFails : Nat) : Except ℚ ℚ := rmtreeGo permFails 0 maxAttempts 0

/-- `PatternMatcher.copy_to` (source lines 110-219): optional destination
reset with retried `rmtree`, then the entry loop.  `destdirExists` models
`destdir.exists()`; the result carries the final tree, the operation log and
the total time spent sleeping in the retry loop. -/
def copyTo (env : Env) (args : CopyArgs) (permFails : Nat) (sel : List Entry)
    (destdirExists : Bool) (fs : DestFS) :
    Except CopyError (DestFS × List Op × ℚ) :=
  if args.remove_dest && destdirExists then
    match rmtreeRetry permFails with
    | .error _ => .error .permissionError
    | .ok waited =>
        match copyEntries env args sel emptyFS with
        | .error err => .error err
        | .ok (fs1, ops) => .ok (fs1, Op.rmtreeOp :: ops, waited)
  else
    match copyEntries env args sel fs with
    | .error err => .error err
    | .ok (fs1, ops) => .ok (fs1, ops, 0)

/-- `PatternMatcher.matches`: filter the index (in insertion order) through
the predicate. -/
def selectEntries (p : MatchPredicate) (all : List Entry) : List Entry :=
  all.filter (fun e => p.matches e.relpath)

/-! ## Claim C1: the predicate follows the spec's four-step reference rule -/

/-- **C1.** For every path `P` and every `MatchPredicate`, `predicate.matches P`
follows the spec's reference definition exactly: non-empty force-includes that
match win (excludes are not consulted); else a non-empty include list with no
match excludes; else any exclude match excludes; else include.  In particular
all-empty lists accept every path, and a path matching both a force-include
and an exclude is accepted. -/
theorem C1_predicate_follows_reference (p : MatchPredicate) (path : String) :
    p.matches path = p.specVerdict path ∧
    (p.includes = [] → p.excludes = [] → p.force_includes = [] →
      p.matches path = true) ∧
    (∀ g1 ∈ p.force_includes, ∀ g2 ∈ p.excludes,
      g1.matches path = true → g2.matches path = true →
        p.matches path = true) := by
  have main : p.matches path = p.specVerdict path := by
    simp only [MatchPredicate.matches, MatchPredicate.specVerdict]
    split_ifs with h1 h2 h3 h4 h5 h6 h7 h8 h9 <;>
      simp_all [List.any_eq_true, List.isEmpty_iff]
  refine ⟨main, ?_, ?_⟩
  · intro hi he hf
    rw [main]
    simp [MatchPredicate.specVerdict, hi, he, hf]
  · intro g1 hg1 g2 hg2 hm1 hm2
    rw [main]
    have hne : p.force_includes ≠ [] := List.ne_nil_of_mem hg1
    simp [MatchPredicate.specVerdict, hne]
    exact Or.inl ⟨g1, hg1, hm1⟩

/-! ## Claim C4: `?` behaves exactly like `*` (zero or more non-separator
characters) -/

/-- **C4.** In a compiled glob pattern `?` has exactly the same semantics as
`*`: the compiled regex texts of `"a?c"` and `"a*c"` coincide and the two
patterns accept exactly the same strings; `"a?c"` matches `"ac"`, `"abc"` and
`"abbc"` (so `?` is not a single-character wildcard) but no string containing
`'/'` anywhere (non-separator characters only, within one segment). -/
theorem C4_question_mark_equals_star :
    globToRegexString "a?c" = globToRegexString "a*c" ∧
    (∀ s : String, (RecursiveGlobPattern.compile "a?c").matches s
        = (RecursiveGlobPattern.compile "a*c").matches s) ∧
    (RecursiveGlobPattern.compile "a?c").matches "ac" = true ∧
    (RecursiveGlobPattern.compile "a?c").matches "abc" = true ∧
    (RecursiveGlobPattern.compile "a?c").matches "abbc" = true ∧
    (RecursiveGlobPattern.compile "a?c").matches "a/c" = false ∧
    (∀ s : String, (RecursiveGlobPattern.compile "a?c").matches s = true →
      '/' ∉ s.data) := by
  refine ⟨by decide, ?_, by decide, by decide, by decide, by decide, ?_⟩
  · intro s
    have hp : (RecursiveGlobPattern.compile "a?c").pattern
        = (RecursiveGlobPattern.compile "a*c").pattern := by decide
    simp only [RecursiveGlobPattern.matches, hp]
  · intro s hm
    exact matches_avoidsChar (by decide) hm

/-! ## Claim C5: recursive glob correctness, anchored full-string matching -/

/-- **C5.** The compiled pattern for `"lib/**/*.so"` matches `"lib/x.so"` and
`"lib/a/b/x.so"` but not `"libx/x.so"`; matching is a full-string anchored
match, not a substring search: `"xlib/x.so"` contains the matching substring
`"lib/x.so"` yet is rejected. -/
theorem C5_recursive_glob_anchored :
    (RecursiveGlobPattern.compile "lib/**/*.so").matches "lib/x.so" = true ∧
    (RecursiveGlobPattern.compile "lib/**/*.so").matches "lib/a/b/x.so" = true ∧
    (RecursiveGlobPattern.compile "lib/**/*.so").matches "libx/x.so" = false ∧
    "lib/x.so".data <:+: "xlib/x.so".data ∧
    (RecursiveGlobPattern.compile "lib/**/*.so").matches "xlib/x.so" = false := by
  refine ⟨by decide, by decide, by decide, ⟨['x'], [], by decide⟩, by decide⟩

/-! ## Structural lemmas about the destination-tree model -/

theorem ancestorsGo_length {done : List Char} {cs : List Char} {a : String}
    (h : a ∈ ancestorsGo done cs) : a.length < done.length + cs.length := by
  induction cs generalizing done with
  | nil => cases h
  | cons c rest ih =>
      simp only [ancestorsGo] at h
      split at h
      · rcases List.mem_cons.mp h with h1 | h1
        · subst h1
          have hrev : (String.mk done.reverse).length = done.length := by
            simp [String.length]
          simp only [List.length_cons]
          omega
        · have := ih h1
          simp only [List.length_cons] at this ⊢
          omega
      · have := ih h
        simp only [List.length_cons] at this ⊢
        omega

theorem ancestors_length_lt {p : String} {a : String} (h : a ∈ ancestorsOf p) :
    a.length < p.length := by
  have h1 := ancestorsGo_length h
  have h2 : p.data.length = p.length := rfl
  simp only [List.length_nil, Nat.zero_add] at h1
  omega

theorem ancestors_ne {p a : String} (h : a ∈ ancestorsOf p) : a ≠ p := by
  intro hap
  have := ancestors_length_lt h
  rw [hap] at this
  omega

theorem self_not_mem_ancestors (p : String) : p ∉ ancestorsOf p :=
  fun h => ancestors_ne h rfl

theorem setNode_apply_ne {fs : DestFS} {p q : String} {n : Node} (h : q ≠ p) :
    setNode fs p n q = fs q := by
  simp [setNode, h]

theorem setNode_apply_self (fs : DestFS) (p : String) (n : Node) :
    setNode fs p n p = some n := by
  simp [setNode]

theorem removeNode_apply_ne {fs : DestFS} {p q : String} (h : q ≠ p) :
    removeNode fs p q = fs q := by
  simp [removeNode, h]

theorem removeNode_apply_self (fs : DestFS) (p : String) :
    removeNode fs p p = none := by
  simp [removeNode]

theorem mkdirStep_apply_ne {fs : DestFS} {a q : String} (h : q ≠ a) :
    mkdirStep fs a q = fs q := by
  unfold mkdirStep
  split
  · rfl
  · exact setNode_apply_ne h

theorem mkdirStep_some {fs : DestFS} {a q : String} {n : Node}
    (h : fs q = some n) : mkdirStep fs a q = some n := by
  by_cases hqa : q = a
  · subst hqa
    unfold mkdirStep
    rw [if_pos (by simp [h])]
    exact h
  · rw [mkdirStep_apply_ne hqa]
    exact h

theorem foldl_mkdirStep_some {l : List String} {fs : DestFS} {q : String}
    {n : Node} (h : fs q = some n) : (l.foldl mkdirStep fs) q = some n := by
  induction l generalizing fs with
  | nil => exact h
  | cons a l ih => exact ih (mkdirStep_some h)

theorem foldl_mkdirStep_not_mem {l : List String} {fs : DestFS} {q : String}
    (h : q ∉ l) : (l.foldl mkdirStep fs) q = fs q := by
  induction l generalizing fs with
  | nil => rfl
  | cons a l ih =>
      have hqa : q ≠ a := fun hq => h (hq ▸ List.mem_cons_self a l)
      have hql : q ∉ l := fun hq => h (List.mem_cons_of_mem a hq)
      simp only [List.foldl_cons]
      rw [ih hql, mkdirStep_apply_ne hqa]

theorem foldl_mkdirStep_isSome {l : List String} {fs : DestFS} {q : String}
    (h : (fs q).isSome) : ((l.foldl mkdirStep fs) q).isSome := by
  obtain ⟨n, hn⟩ := Option.isSome_iff_exists.mp h
  rw [foldl_mkdirStep_some hn]
  rfl

theorem foldl_mkdirStep_mem {l : List String} {fs : DestFS} {q : String}
    (h : q ∈ l) : ((l.foldl mkdirStep fs) q).isSome := by
  induction l generalizing fs with
  | nil => cases h
  | cons a l ih =>
      rcases List.mem_cons.mp h with h1 | h1
      · subst h1
        simp only [List.foldl_cons]
        apply foldl_mkdirStep_isSome
        unfold mkdirStep
        split
        · assumption
        · rw [setNode_apply_self]
          rfl
      · exact ih h1

theorem mkdirParents_some {fs : DestFS} {p q : String} {n : Node}
    (h : fs q = some n) : mkdirParents fs p q = some n :=
  foldl_mkdirStep_some h

theorem mkdirParents_self {fs : DestFS} (p : String) :
    mkdirParents fs p p = fs p :=
  foldl_mkdirStep_not_mem (self_not_mem_ancestors p)

theorem mkdirParents_ancestor {fs : DestFS} {p a : String}
    (h : a ∈ ancestorsOf p) : ((mkdirParents fs p) a).isSome :=
  foldl_mkdirStep_mem h

theorem mkdirParents_not_mem {fs : DestFS} {p q : String}
    (h : q ∉ ancestorsOf p) : mkdirParents fs p q = fs q :=
  foldl_mkdirStep_not_mem h

/-- `destpath.exists() or destpath.is_symlink()` is exactly occupancy of the
destination path. -/
theorem exists_or_symlink (fs : DestFS) (p : String) :
    (existsAt fs p || isSymlinkAt fs p) = (fs p).isSome := by
  unfold existsAt isSymlinkAt
  cases h : fs p with
  | none => simp
  | some n => cases n <;> simp

/-- Normal form of the conditional unlink when it cannot fail (the occupant,
if any, is not a directory, or the branch is disabled by `remove_dest`). -/
theorem unlinkIfOccupied_eq (args : CopyArgs) (fs : DestFS) (dp : String)
    (h : fs dp ≠ some Node.dir ∨ args.remove_dest = true) :
    unlinkIfOccupied args fs dp =
      .ok (if (!args.remove_dest && (fs dp).isSome) = true
           then (removeNode fs dp, [Op.unlinkOp dp])
           else (fs, [])) := by
  unfold unlinkIfOccupied
  rw [exists_or_symlink]
  cases hb : (!args.remove_dest && (fs dp).isSome) with
  | false => simp [hb]
  | true =>
      rw [if_pos rfl]
      rw [Bool.and_eq_true] at hb
      obtain ⟨hrd, hsome⟩ := hb
      obtain ⟨n, hn⟩ := Option.isSome_iff_exists.mp hsome
      unfold unlinkAt
      rw [hn]
      cases n with
      | dir =>
          rcases h with h | h
          · exact absurd hn h
          · rw [h] at hrd
            cases hrd
      | symlink t => rfl
      | file d i => rfl

/-- The destination path an operation acts on, if any. -/
def opPath : Op → Option String
  | .rmtreeOp => none
  | .mkdirOp p => some p
  | .unlinkOp p => some p
  | .symlinkOp _ p => some p
  | .linkOp p => some p
  | .copyOp p => some p
  | .skipOp p => some p

/-- Inversion for the conditional unlink: on success the state is either
untouched or the destination occupant was removed. -/
theorem unlinkIfOccupied_ok_inv {args : CopyArgs} {fs : DestFS} {dp : String}
    {fs1 : DestFS} {ops1 : List Op}
    (h : unlinkIfOccupied args fs dp = .ok (fs1, ops1)) :
    (fs1 = fs ∧ ops1 = []) ∨
      (fs1 = removeNode fs dp ∧ ops1 = [Op.unlinkOp dp] ∧
        args.remove_dest = false ∧ (fs dp).isSome = true ∧ fs dp ≠ some Node.dir) := by
  unfold unlinkIfOccupied at h
  rw [exists_or_symlink] at h
  split at h
  · rename_i hcond
    rw [Bool.and_eq_true] at hcond
    obtain ⟨hrd, hsome⟩ := hcond
    unfold unlinkAt at h
    cases hn : fs dp with
    | none => rw [hn] at hsome; cases hsome
    | some n =>
        rw [hn] at h
        cases n with
        | dir => cases h
        | symlink t =>
            rcases Except.ok.inj h with h2
            rcases Prod.mk.injEq .. ▸ h2 with ⟨ha, hb⟩
            refine Or.inr ⟨ha.symm, hb.symm, ?_, rfl, by simp⟩
            cases hr : args.remove_dest
            · rfl
            · rw [hr] at hrd; cases hrd
        | file d i =>
            rcases Except.ok.inj h with h2
            rcases Prod.mk.injEq .. ▸ h2 with ⟨ha, hb⟩
            refine Or.inr ⟨ha.symm, hb.symm, ?_, rfl, by simp⟩
            cases hr : args.remove_dest
            · rfl
            · rw [hr] at hrd; cases hrd
  · rcases Except.ok.inj h with h2
    rcases Prod.mk.injEq .. ▸ h2 with ⟨ha, hb⟩
    exact Or.inl ⟨ha.symm, hb.symm⟩

/-- On success with `remove_dest=False` the destination path is vacant after
the conditional unlink. -/
theorem unlinkIfOccupied_ok_dp {args : CopyArgs} {fs : DestFS} {dp : String}
    {fs1 : DestFS} {ops1 : List Op}
    (hrd : args.remove_dest = false)
    (h : unlinkIfOccupied args fs dp = .ok (fs1, ops1)) :
    fs1 dp = none := by
  rcases unlinkIfOccupied_ok_inv h with ⟨hfs, hops⟩ | ⟨hfs, -, -, -, -⟩
  · unfold unlinkIfOccupied at h
    rw [exists_or_symlink, hrd] at h
    simp only [Bool.not_false, Bool.true_and] at h
    cases hocc : (fs dp).isSome with
    | false =>
        rw [hfs]
        exact Option.not_isSome_iff_eq_none.mp (by rw [hocc]; exact Bool.false_ne_true)
    | true =>
        rw [hocc, if_pos rfl] at h
        unfold unlinkAt at h
        obtain ⟨n, hn⟩ := Option.isSome_iff_exists.mp hocc
        rw [hn] at h
        cases n with
        | dir => cases h
        | symlink t =>
            rcases Except.ok.inj h with h2
            have h3 := congrArg Prod.snd h2
            rw [hops] at h3
            cases h3
        | file d i =>
            rcases Except.ok.inj h with h2
            have h3 := congrArg Prod.snd h2
            rw [hops] at h3
            cases h3
  · rw [hfs]
    exact removeNode_apply_self fs dp

/-- A list ending in `a` is never the singleton `[b]` when `a ≠ b`. -/
theorem append_singleton_ne {α : Type} {l : List α} {a b : α} (hab : a ≠ b) :
    l ++ [a] ≠ [b] := by
  intro h
  have hlast := congrArg List.getLast? h
  rw [List.getLast?_concat] at hlast
  simp only [List.getLast?_singleton, Option.some.injEq] at hlast
  exact hab hlast

/-- The directory branch of `copy_to` in closed form. -/
theorem copyEntry_dir {env : Env} {args : CopyArgs} {fs : DestFS} {e : Entry}
    (hk : e.kind = EntryKind.dir) :
    copyEntry env args fs e
      = .ok (mkdirTree fs (destPath args e), [Op.mkdirOp (destPath args e)]) := by
  obtain ⟨rp, k⟩ := e
  simp only at hk
  subst hk
  rfl

/-- The skip branch of `copy_to` in closed form. -/
theorem copyEntry_skip {env : Env} {args : CopyArgs} {fs : DestFS} {e : Entry}
    {dev ino : Nat} (hk : e.kind = EntryKind.file dev ino)
    (hc : (existsAt fs (destPath args e) && !args.always_copy
      && (statIno fs (destPath args e) == some ino)) = true) :
    copyEntry env args fs e = .ok (fs, [Op.skipOp (destPath args e)]) := by
  obtain ⟨rp, k⟩ := e
  simp only at hk
  subst hk
  simp [copyEntry, hc]

/-- An occupant whose inode matches in the skip test is a regular file with
that inode. -/
theorem skip_cond_occupant {fs : DestFS} {dp : String} {b : Bool} {ino : Nat}
    (hc : (existsAt fs dp && b && (statIno fs dp == some ino)) = true) :
    ∃ d', fs dp = some (Node.file d' ino) := by
  rw [Bool.and_eq_true, Bool.and_eq_true] at hc
  have hst := hc.2
  unfold statIno at hst
  cases hn : fs dp with
  | none => rw [hn] at hst; cases hst
  | some n =>
      rw [hn] at hst
      cases n with
      | dir => cases hst
      | symlink t => cases hst
      | file d i =>
          simp only [beq_iff_eq, Option.some.injEq] at hst
          exact ⟨d, by rw [hst]⟩

/-- Inversion of the symlink branch of `copy_to`. -/
theorem copyEntry_symlink_inv {env : Env} {args : CopyArgs} {fs : DestFS}
    {e : Entry} {t : String} {fs' : DestFS} {ops : List Op}
    (hk : e.kind = EntryKind.symlink t)
    (hok : copyEntry env args fs e = .ok (fs', ops)) :
    ∃ fs1 ops1, unlinkIfOccupied args fs (destPath args e) = .ok (fs1, ops1) ∧
      ((mkdirParents fs1 (destPath args e)) (destPath args e)).isSome = false ∧
      fs' = setNode (mkdirParents fs1 (destPath args e)) (destPath args e)
        (Node.symlink t) ∧
      ops = ops1 ++ [Op.symlinkOp t (destPath args e)] := by
  obtain ⟨rp, k⟩ := e
  simp only at hk
  subst hk
  simp only [copyEntry] at hok
  rcases hu : unlinkIfOccupied args fs (destPath args ⟨rp, .symlink t⟩)
    with err | ⟨fs1, ops1⟩ <;> rw [hu] at hok
  · exact Except.noConfusion hok
  · simp only [] at hok
    split at hok
    · exact Except.noConfusion hok
    · rename_i hS
      rcases Except.ok.inj hok with h2
      obtain ⟨ha, hb⟩ := Prod.mk.injEq .. ▸ h2
      exact ⟨fs1, ops1, rfl, Bool.not_eq_true _ ▸ hS, ha.symm, hb.symm⟩

/-- Inversion of the regular-file branch of `copy_to` when the identity
short-circuit does not fire: the entry was either hardlinked or copied. -/
theorem copyEntry_file_inv {env : Env} {args : CopyArgs} {fs : DestFS}
    {e : Entry} {dev ino : Nat} {fs' : DestFS} {ops : List Op}
    (hk : e.kind = EntryKind.file dev ino)
    (hskip : (existsAt fs (destPath args e) && !args.always_copy
      && (statIno fs (destPath args e) == some ino)) = false)
    (hok : copyEntry env args fs e = .ok (fs', ops)) :
    ∃ fs1 ops1, unlinkIfOccupied args fs (destPath args e) = .ok (fs1, ops1) ∧
      ((fs' = setNode (mkdirParents fs1 (destPath args e)) (destPath args e)
            (Node.file dev ino) ∧
          ops = ops1 ++ [Op.linkOp (destPath args e)] ∧
          (!args.always_copy
            && ((mkdirParents fs1 (destPath args e)) (destPath args e)).isNone
            && env.linkOk (destPath args e)) = true) ∨
        (fs' = copy2At env (mkdirParents fs1 (destPath args e))
            (destPath args e) (baseNameOf e.relpath) ∧
          ops = ops1 ++ [Op.copyOp (destPath args e)] ∧
          (!args.always_copy
            && ((mkdirParents fs1 (destPath args e)) (destPath args e)).isNone
            && env.linkOk (destPath args e)) = false)) := by
  obtain ⟨rp, k⟩ := e
  simp only at hk
  subst hk
  simp only [copyEntry, hskip, Bool.false_eq_true, if_false] at hok
  rcases hu : unlinkIfOccupied args fs (destPath args ⟨rp, .file dev ino⟩)
    with err | ⟨fs1, ops1⟩ <;> rw [hu] at hok
  · exact Except.noConfusion hok
  · simp only [] at hok
    refine ⟨fs1, ops1, rfl, ?_⟩
    split at hok
    · rename_i hL
      rcases Except.ok.inj hok with h2
      obtain ⟨ha, hb⟩ := Prod.mk.injEq .. ▸ h2
      exact Or.inl ⟨ha.symm, hb.symm, hL⟩
    · rename_i hL
      split at hok
      · rcases Except.ok.inj hok with h2
        obtain ⟨ha, hb⟩ := Prod.mk.injEq .. ▸ h2
        exact Or.inr ⟨ha.symm, hb.symm, Bool.not_eq_true _ ▸ hL⟩
      · exact Except.noConfusion hok

/-- `shutil.copy2` writes at the destination path itself whenever the
destination is not an existing directory. -/
theorem copy2At_not_dir {env : Env} {fs : DestFS} {p b : String}
    (h : fs p ≠ some Node.dir) :
    copy2At env fs p b = setNode fs p (copyNodeAt env fs p) := by
  unfold copy2At
  cases hn : fs p with
  | none => rfl
  | some n =>
      cases n with
      | dir => exact absurd hn h
      | symlink t => rfl
      | file d i => rfl

/-- Frame property of one `copy_to` step with `remove_dest=False`: every
destination path other than the entry's own is preserved exactly. -/
theorem copyEntry_frame {env : Env} {args : CopyArgs} {fs : DestFS} {e : Entry}
    {fs' : DestFS} {ops : List Op}
    (hrd : args.remove_dest = false)
    (hok : copyEntry env args fs e = .ok (fs', ops)) :
    ∀ q, q ≠ destPath args e → ∀ n, fs q = some n → fs' q = some n := by
  intro q hq n hn
  rcases hk : e.kind with _ | t | ⟨dev, ino⟩
  · rw [copyEntry_dir hk] at hok
    rcases Except.ok.inj hok with h2
    obtain ⟨ha, -⟩ := Prod.mk.injEq .. ▸ h2
    rw [← ha]
    unfold mkdirTree
    rw [mkdirStep_apply_ne hq]
    exact mkdirParents_some hn
  · obtain ⟨fs1, ops1, hu, -, hfs', -⟩ := copyEntry_symlink_inv hk hok
    subst hfs'
    rw [setNode_apply_ne hq]
    apply mkdirParents_some
    rcases unlinkIfOccupied_ok_inv hu with ⟨h1, -⟩ | ⟨h1, -⟩ <;> subst h1
    · exact hn
    · rw [removeNode_apply_ne hq]
      exact hn
  · cases hc : (existsAt fs (destPath args e) && !args.always_copy
        && (statIno fs (destPath args e) == some ino)) with
    | true =>
        rw [copyEntry_skip hk hc] at hok
        rcases Except.ok.inj hok with h2
        obtain ⟨ha, -⟩ := Prod.mk.injEq .. ▸ h2
        rw [← ha]
        exact hn
    | false =>
        obtain ⟨fs1, ops1, hu, hcase⟩ := copyEntry_file_inv hk hc hok
        have hfs1 : fs1 q = some n := by
          rcases unlinkIfOccupied_ok_inv hu with ⟨h1, -⟩ | ⟨h1, -⟩ <;> subst h1
          · exact hn
          · rw [removeNode_apply_ne hq]
            exact hn
        have hdpnone : ((mkdirParents fs1 (destPath args e)) (destPath args e))
            = none := by
          rw [mkdirParents_self]
          exact unlinkIfOccupied_ok_dp hrd hu
        rcases hcase with ⟨hfs', -, -⟩ | ⟨hfs', -, -⟩ <;> subst hfs'
        · rw [setNode_apply_ne hq]
          exact mkdirParents_some hfs1
        · rw [copy2At_not_dir (by rw [hdpnone]; simp)]
          rw [setNode_apply_ne hq]
          exact mkdirParents_some hfs1

/-- Presence is preserved by one `copy_to` step with `remove_dest=False`. -/
theorem copyEntry_presence {env : Env} {args : CopyArgs} {fs : DestFS}
    {e : Entry} {fs' : DestFS} {ops : List Op}
    (hrd : args.remove_dest = false)
    (hok : copyEntry env args fs e = .ok (fs', ops)) :
    ∀ q, (fs q).isSome → (fs' q).isSome := by
  intro q hq
  by_cases hqd : q = destPath args e
  · subst hqd
    rcases hk : e.kind with _ | t | ⟨dev, ino⟩
    · rw [copyEntry_dir hk] at hok
      rcases Except.ok.inj hok with h2
      obtain ⟨ha, -⟩ := Prod.mk.injEq .. ▸ h2
      rw [← ha]
      unfold mkdirTree mkdirStep
      split
      · assumption
      · rw [setNode_apply_self]
        rfl
    · obtain ⟨fs1, ops1, hu, -, hfs', -⟩ := copyEntry_symlink_inv hk hok
      subst hfs'
      rw [setNode_apply_self]
      rfl
    · cases hc : (existsAt fs (destPath args e) && !args.always_copy
          && (statIno fs (destPath args e) == some ino)) with
      | true =>
          rw [copyEntry_skip hk hc] at hok
          rcases Except.ok.inj hok with h2
          obtain ⟨ha, -⟩ := Prod.mk.injEq .. ▸ h2
          rw [← ha]
          exact hq
      | false =>
          obtain ⟨fs1, ops1, hu, hcase⟩ := copyEntry_file_inv hk hc hok
          have hdpnone : ((mkdirParents fs1 (destPath args e)) (destPath args e))
              = none := by
            rw [mkdirParents_self]
            exact unlinkIfOccupied_ok_dp hrd hu
          rcases hcase with ⟨hfs', -, -⟩ | ⟨hfs', -, -⟩ <;> subst hfs'
          · rw [setNode_apply_self]
            rfl
          · rw [copy2At_not_dir (by rw [hdpnone]; simp), setNode_apply_self]
            rfl
  · obtain ⟨n, hn⟩ := Option.isSome_iff_exists.mp hq
    rw [copyEntry_frame hrd hok q hqd n hn]
    rfl

/-! ## The settled state of an entry (used for the idempotence claim) -/

/-- The destination value a materialized entry settles at: directories are
present (any occupant), symlinks hold the literal target, regular files hold
the source inode (on some device: a pre-existing hardlink's recorded device
may differ, see C3). -/
def settledNode (e : Entry) (v : Option Node) : Prop :=
  match e.kind with
  | .dir => v.isSome = true
  | .symlink t => v = some (Node.symlink t)
  | .file _ ino => ∃ d', v = some (Node.file d' ino)

/-- An entry is settled in a destination tree: its destination value is
materialized and (for directories and symlinks, which re-run `mkdir` without
re-creating parents lazily) its parent directories exist. -/
def settledAt (args : CopyArgs) (e : Entry) (fs : DestFS) : Prop :=
  settledNode e (fs (destPath args e)) ∧
  (match e.kind with
   | .file _ _ => True
   | _ => ∀ a ∈ ancestorsOf (destPath args e), (fs a).isSome)

theorem mkdir_foldl_id {l : List String} {fs : DestFS}
    (h : ∀ a ∈ l, (fs a).isSome) : l.foldl mkdirStep fs = fs := by
  induction l with
  | nil => rfl
  | cons a l ih =>
      simp only [List.foldl_cons]
      have ha : mkdirStep fs a = fs := by
        unfold mkdirStep
        rw [if_pos (h a (List.mem_cons_self a l))]
      rw [ha]
      exact ih (fun b hb => h b (List.mem_cons_of_mem a hb))

theorem mkdirParents_id {fs : DestFS} {p : String}
    (h : ∀ a ∈ ancestorsOf p, (fs a).isSome) : mkdirParents fs p = fs :=
  mkdir_foldl_id h

/-- A `copy_to` step on an already-settled entry is the identity on the
destination tree; its operations all act at the entry's own destination path,
and a regular file produces exactly the skip. -/
theorem copyEntry_settled_id {env : Env} {args : CopyArgs} {fs : DestFS}
    {e : Entry}
    (hrd : args.remove_dest = false)
    (hac : args.always_copy = false)
    (hs : settledAt args e fs) :
    ∃ ops, copyEntry env args fs e = .ok (fs, ops) ∧
      (∀ op ∈ ops, opPath op = some (destPath args e)) ∧
      (∀ d i, e.kind = EntryKind.file d i → ops = [Op.skipOp (destPath args e)]) := by
  obtain ⟨hnode, hanc⟩ := hs
  rcases hk : e.kind with _ | t | ⟨dev, ino⟩
  · -- directory: every mkdir is a no-op
    simp only [settledNode, hk] at hnode
    rw [hk] at hanc
    have hanc2 : ∀ a ∈ ancestorsOf (destPath args e), (fs a).isSome := hanc
    refine ⟨[Op.mkdirOp (destPath args e)], ?_, ?_, ?_⟩
    · rw [copyEntry_dir hk]
      have hp : mkdirParents fs (destPath args e) = fs := mkdirParents_id hanc2
      unfold mkdirTree
      rw [hp]
      unfold mkdirStep
      rw [if_pos hnode]
    · intro op hop
      rw [List.mem_singleton.mp hop]
      rfl
    · intro d i hdi
      cases hdi
  · -- symlink: unlink then re-create the same link
    simp only [settledNode, hk] at hnode
    rw [hk] at hanc
    have hanc2 : ∀ a ∈ ancestorsOf (destPath args e), (fs a).isSome := hanc
    have hocc : (fs (destPath args e)).isSome = true := by rw [hnode]; rfl
    have hcond : (!args.remove_dest && (fs (destPath args e)).isSome) = true := by
      rw [hrd, hocc]
      rfl
    have hu := unlinkIfOccupied_eq args fs (destPath args e)
      (Or.inl (by rw [hnode]; simp))
    rw [hcond, if_pos rfl] at hu
    have hanc1 : ∀ a ∈ ancestorsOf (destPath args e),
        ((removeNode fs (destPath args e)) a).isSome := by
      intro a ha
      rw [removeNode_apply_ne (ancestors_ne ha)]
      exact hanc2 a ha
    have hp : mkdirParents (removeNode fs (destPath args e)) (destPath args e)
        = removeNode fs (destPath args e) := mkdirParents_id hanc1
    refine ⟨[Op.unlinkOp (destPath args e), Op.symlinkOp t (destPath args e)],
      ?_, ?_, ?_⟩
    · obtain ⟨rp, k⟩ := e
      simp only at hk
      subst hk
      simp only [copyEntry]
      rw [hu]
      simp only []
      rw [hp]
      rw [if_neg (by rw [removeNode_apply_self]; simp)]
      have hfs : setNode (removeNode fs (destPath args ⟨rp, .symlink t⟩))
          (destPath args ⟨rp, .symlink t⟩) (Node.symlink t) = fs := by
        funext q
        by_cases hq : q = destPath args ⟨rp, .symlink t⟩
        · subst hq
          rw [setNode_apply_self]
          exact hnode.symm
        · rw [setNode_apply_ne hq, removeNode_apply_ne hq]
      rw [hfs]
      rfl
    · intro op hop
      rcases List.mem_cons.mp hop with h1 | h1
      · rw [h1]; rfl
      · rw [List.mem_singleton.mp h1]; rfl
    · intro d i hdi
      cases hdi
  · -- regular file: the identity short-circuit fires
    simp only [settledNode, hk] at hnode
    obtain ⟨d', hd'⟩ := hnode
    have hc : (existsAt fs (destPath args e) && !args.always_copy
        && (statIno fs (destPath args e) == some ino)) = true := by
      unfold existsAt statIno
      rw [hd', hac]
      simp
    refine ⟨[Op.skipOp (destPath args e)], copyEntry_skip hk hc, ?_, ?_⟩
    · intro op hop
      rw [List.mem_singleton.mp hop]
      rfl
    · intro d i hdi
      rfl

/-- One `copy_to` step preserves the settledness of every entry with a
different destination path (`remove_dest=False`). -/
theorem copyEntry_preserves_settled {env : Env} {args : CopyArgs} {fs : DestFS}
    {e e' : Entry} {fs' : DestFS} {ops : List Op}
    (hrd : args.remove_dest = false)
    (hok : copyEntry env args fs e = .ok (fs', ops))
    (hne : destPath args e' ≠ destPath args e)
    (hs : settledAt args e' fs) : settledAt args e' fs' := by
  obtain ⟨hnode, hanc⟩ := hs
  constructor
  · unfold settledNode at hnode ⊢
    rcases hk : e'.kind with _ | t | ⟨dev, ino⟩ <;> rw [hk] at hnode
    · obtain ⟨n, hn⟩ := Option.isSome_iff_exists.mp hnode
      rw [copyEntry_frame hrd hok _ hne n hn]
      rfl
    · rw [copyEntry_frame hrd hok _ hne _ hnode]
    · obtain ⟨d', hd'⟩ := hnode
      exact ⟨d', copyEntry_frame hrd hok _ hne _ hd'⟩
  · obtain ⟨rp', k'⟩ := e'
    cases k' with
    | dir =>
        intro a ha
        exact copyEntry_presence hrd hok a (hanc a ha)
    | symlink t =>
        intro a ha
        exact copyEntry_presence hrd hok a (hanc a ha)
    | file d i => trivial

/-! ## Lemmas about the entry loop -/

/-- Inversion of one unfolding of the entry loop. -/
theorem copyEntries_cons_inv {env : Env} {args : CopyArgs} {e : Entry}
    {rest : List Entry} {fs fsY : DestFS} {ops : List Op}
    (h : copyEntries env args (e :: rest) fs = .ok (fsY, ops)) :
    ∃ fsa opsa opsb, copyEntry env args fs e = .ok (fsa, opsa) ∧
      copyEntries env args rest fsa = .ok (fsY, opsb) ∧ ops = opsa ++ opsb := by
  unfold copyEntries at h
  rcases h1 : copyEntry env args fs e with err | ⟨fsa, opsa⟩ <;> rw [h1] at h
  · exact Except.noConfusion h
  · simp only [] at h
    rcases h2 : copyEntries env args rest fsa with err | ⟨fsb, opsb⟩ <;>
      rw [h2] at h
    · exact Except.noConfusion h
    · rcases Except.ok.inj h with h3
      obtain ⟨ha, hb⟩ := Prod.mk.injEq .. ▸ h3
      exact ⟨fsa, opsa, opsb, rfl, ha ▸ h2, hb.symm⟩

/-- The entry loop preserves the settledness of an entry whose destination
path none of the processed entries share (`remove_dest=False`). -/
theorem copyEntries_preserves_settled {env : Env} {args : CopyArgs} {e : Entry}
    (hrd : args.remove_dest = false) :
    ∀ (rest : List Entry) (fsX fsY : DestFS) (ops : List Op),
      copyEntries env args rest fsX = .ok (fsY, ops) →
      (∀ e' ∈ rest, destPath args e ≠ destPath args e') →
      settledAt args e fsX → settledAt args e fsY := by
  intro rest
  induction rest with
  | nil =>
      intro fsX fsY ops hok hne hs
      rcases Except.ok.inj hok with h3
      obtain ⟨ha, -⟩ := Prod.mk.injEq .. ▸ h3
      exact ha ▸ hs
  | cons e1 rest ih =>
      intro fsX fsY ops hok hne hs
      obtain ⟨fsa, opsa, opsb, h1, h2, -⟩ := copyEntries_cons_inv hok
      have hs1 : settledAt args e fsa :=
        copyEntry_preserves_settled hrd h1
          (hne e1 (List.mem_cons_self e1 rest)) hs
      exact ih fsa fsY opsb h2
        (fun e' he' => hne e' (List.mem_cons_of_mem e1 he')) hs1

/-- After a successful first pass with hardlinks always available,
`always_copy=False` and `remove_dest=False`, every selected entry is settled
in the resulting destination tree. -/
theorem copyEntries_settles_all {env : Env} {args : CopyArgs}
    (hrd : args.remove_dest = false)
    (hac : args.always_copy = false)
    (hlink : ∀ p, env.linkOk p = true) :
    ∀ (sel : List Entry) (fs0 fs1 : DestFS) (ops : List Op),
      copyEntries env args sel fs0 = .ok (fs1, ops) →
      (sel.map (destPath args)).Nodup →
      ∀ e ∈ sel, settledAt args e fs1 := by
  intro sel
  induction sel with
  | nil =>
      intro fs0 fs1 ops hok hnd e he
      cases he
  | cons e1 rest ih =>
      intro fs0 fs1 ops hok hnd e he
      obtain ⟨fsa, opsa, opsb, h1, h2, -⟩ := copyEntries_cons_inv hok
      rw [List.map_cons, List.nodup_cons] at hnd
      obtain ⟨hn1, hn2⟩ := hnd
      rcases List.mem_cons.mp he with he1 | he1
      · subst he1
        have hs1 : settledAt args e fsa := by
          rcases hk : e.kind with _ | t | ⟨dev, ino⟩
          · -- directory
            rw [copyEntry_dir hk] at h1
            rcases Except.ok.inj h1 with h3
            obtain ⟨ha, -⟩ := Prod.mk.injEq .. ▸ h3
            constructor
            · simp only [settledNode, hk]
              rw [← ha]
              unfold mkdirTree mkdirStep
              split
              · assumption
              · rw [setNode_apply_self]
                rfl
            · rw [hk, ← ha]
              intro a ha2
              unfold mkdirTree
              rw [mkdirStep_apply_ne (ancestors_ne ha2)]
              exact mkdirParents_ancestor ha2
          · -- symlink
            obtain ⟨fsb, opsc, hu, -, hfs', -⟩ := copyEntry_symlink_inv hk h1
            subst hfs'
            constructor
            · simp only [settledNode, hk]
              exact setNode_apply_self _ _ _
            · rw [hk]
              intro a ha2
              rw [setNode_apply_ne (ancestors_ne ha2)]
              exact mkdirParents_ancestor ha2
          · -- regular file
            cases hc : (existsAt fs0 (destPath args e) && !args.always_copy
                && (statIno fs0 (destPath args e) == some ino)) with
            | true =>
                rw [copyEntry_skip hk hc] at h1
                rcases Except.ok.inj h1 with h3
                obtain ⟨ha, -⟩ := Prod.mk.injEq .. ▸ h3
                constructor
                · simp only [settledNode, hk]
                  obtain ⟨d', hd'⟩ := skip_cond_occupant hc
                  exact ⟨d', by rw [← ha]; exact hd'⟩
                · rw [hk]
                  trivial
            | false =>
                obtain ⟨fsb, opsc, hu, hcase⟩ := copyEntry_file_inv hk hc h1
                rcases hcase with ⟨hfs', -, -⟩ | ⟨-, -, hL⟩
                · subst hfs'
                  constructor
                  · simp only [settledNode, hk]
                    exact ⟨dev, setNode_apply_self _ _ _⟩
                  · rw [hk]
                    trivial
                · -- the copy fallback cannot fire: the link succeeds
                  exfalso
                  have hdpn : ((mkdirParents fsb (destPath args e))
                      (destPath args e)).isNone = true := by
                    rw [mkdirParents_self, unlinkIfOccupied_ok_dp hrd hu]
                    rfl
                  rw [hac, hdpn, hlink (destPath args e)] at hL
                  cases hL
        exact copyEntries_preserves_settled hrd rest fsa fs1 opsb h2
          (by
            intro e' he'
            intro heq
            exact hn1 (heq ▸ List.mem_map_of_mem (destPath args) he'))
          hs1
      · exact ih fsa fs1 opsb h2 hn2 e he1

/-- The entry loop on a tree in which every entry is settled is the identity:
it succeeds, changes nothing, and its operations all act at the destination
paths of their own entries, regular files producing exactly the skip. -/
theorem copyEntries_settled_id {env : Env} {args : CopyArgs}
    (hrd : args.remove_dest = false)
    (hac : args.always_copy = false) :
    ∀ (sel : List Entry) (fs : DestFS),
      (∀ e ∈ sel, settledAt args e fs) →
      ∃ ops2, copyEntries env args sel fs = .ok (fs, ops2) ∧
        (∀ op ∈ ops2, ∃ e ∈ sel, opPath op = some (destPath args e) ∧
          (∀ d i, e.kind = EntryKind.file d i →
            op = Op.skipOp (destPath args e))) ∧
        (∀ e ∈ sel, ∀ d i, e.kind = EntryKind.file d i →
          Op.skipOp (destPath args e) ∈ ops2) := by
  intro sel
  induction sel with
  | nil =>
      intro fs hall
      exact ⟨[], rfl, fun op hop => absurd hop (List.not_mem_nil op),
        fun e he => absurd he (List.not_mem_nil e)⟩
  | cons e1 rest ih =>
      intro fs hall
      obtain ⟨opsa, h1, hpath1, hskip1⟩ :=
        @copyEntry_settled_id env args fs e1 hrd hac
          (hall e1 (List.mem_cons_self e1 rest))
      obtain ⟨opsb, h2, hpath2, hskip2⟩ :=
        ih fs (fun e he => hall e (List.mem_cons_of_mem e1 he))
      refine ⟨opsa ++ opsb, ?_, ?_, ?_⟩
      · unfold copyEntries
        rw [h1]
        simp only []
        rw [h2]
      · intro op hop
        rcases List.mem_append.mp hop with hop | hop
        · refine ⟨e1, List.mem_cons_self e1 rest, hpath1 op hop, ?_⟩
          intro d i hdi
          rw [hskip1 d i hdi] at hop
          exact List.mem_singleton.mp hop
        · obtain ⟨e, he, hp, hsk⟩ := hpath2 op hop
          exact ⟨e, List.mem_cons_of_mem e1 he, hp, hsk⟩
      · intro e he d i hdi
        rcases List.mem_cons.mp he with he1 | he1
        · subst he1
          rw [hskip1 d i hdi]
          exact List.mem_append_left _ (List.mem_singleton_self _)
        · exact List.mem_append_right _ (hskip2 e he1 d i hdi)

/-- Multi-step frame: the entry loop with `remove_dest=False` preserves every
destination path that is no selected entry's destination path. -/
theorem copyEntries_frame {env : Env} {args : CopyArgs}
    (hrd : args.remove_dest = false) :
    ∀ (sel : List Entry) (fs0 fs1 : DestFS) (ops : List Op),
      copyEntries env args sel fs0 = .ok (fs1, ops) →
      ∀ q, (∀ e ∈ sel, q ≠ destPath args e) →
        ∀ n, fs0 q = some n → fs1 q = some n := by
  intro sel
  induction sel with
  | nil =>
      intro fs0 fs1 ops hok q hq n hn
      rcases Except.ok.inj hok with h3
      obtain ⟨ha, -⟩ := Prod.mk.injEq .. ▸ h3
      rw [← ha]
      exact hn
  | cons e1 rest ih =>
      intro fs0 fs1 ops hok q hq n hn
      obtain ⟨fsa, opsa, opsb, h1, h2, -⟩ := copyEntries_cons_inv hok
      have hn1 : fsa q = some n :=
        copyEntry_frame hrd h1 q (hq e1 (List.mem_cons_self e1 rest)) n hn
      exact ih fsa fs1 opsb h2 q
        (fun e' he' => hq e' (List.mem_cons_of_mem e1 he')) n hn1

/-! ## Concrete fixtures shared by witnesses and counterexamples -/

/-- Environment in which `os.link` and `shutil.copy2` always succeed; fresh
copies get identity `(9, 99)`. -/
def envTrue : Env := ⟨fun _ => true, fun _ => true, fun _ => (9, 99)⟩

/-- `copy_to(..., always_copy=False, remove_dest=False)` with empty prefix. -/
def argsNoRemove : CopyArgs := ⟨"", false, false⟩

/-- `copy_to(..., always_copy=False, remove_dest=True)` with empty prefix. -/
def argsRemove : CopyArgs := ⟨"", false, true⟩

/-- A destination holding, at `"x"`, a regular file with identity
`(st_dev, st_ino) = (1, 5)`. -/
def fsInoClash : DestFS := setNode emptyFS "x" (.file 1 5)

/-- A source entry at `"x"` with identity `(st_dev, st_ino) = (2, 5)`:
same inode number as the destination occupant but a different device. -/
def entInoClash : Entry := ⟨"x", .file 2 5⟩

/-! ## Claim C6: destination-removal retry loop -/

/-- **C6.** The `rmtree` retry loop uses an attempt ceiling of 5; a run whose
first `f < 5` attempts fail waits `0.2 * (attempt + 2)` after each failed
attempt (total `∑ a < f, 0.2 * (a + 2)`, so the successive delays are 0.4,
0.6, 0.8, 1.0 across the retries after the first failure); once all 5 attempts
fail the `PermissionError` propagates; in the fails-twice-then-succeeds
scenario the total wait is `1 ≥ 0.2*(0+2) + 0.2*(1+2)` and materialization
then proceeds normally. -/
theorem C6_rmtree_retry :
    maxAttempts = 5 ∧
    (∀ f : Nat, f < maxAttempts →
      rmtreeRetry f = .ok (∑ a ∈ Finset.range f, retryDelaySeconds * ((a : ℚ) + 2))) ∧
    (rmtreeRetry 1 = .ok (2/5) ∧ rmtreeRetry 2 = .ok 1 ∧
     rmtreeRetry 3 = .ok (9/5) ∧ rmtreeRetry 4 = .ok (14/5)) ∧
    (∀ f : Nat, maxAttempts ≤ f → rmtreeRetry f = .error 4) ∧
    (1 : ℚ) ≥ retryDelaySeconds * (0 + 2) + retryDelaySeconds * (1 + 2) ∧
    (∀ (env : Env) (args : CopyArgs) (sel : List Entry) (fs fs1 : DestFS)
        (ops : List Op),
      args.remove_dest = true →
      copyEntries env args sel emptyFS = .ok (fs1, ops) →
      copyTo env args 2 sel true fs = .ok (fs1, Op.rmtreeOp :: ops, 1)) := by
  have hval : ∀ f : Nat, rmtreeRetry f = rmtreeGo f 0 5 0 := fun _ => rfl
  refine ⟨rfl,
    ?_,
    ⟨by norm_num [hval, rmtreeGo, retryDelaySeconds, maxAttempts],
     by norm_num [hval, rmtreeGo, retryDelaySeconds, maxAttempts],
     by norm_num [hval, rmtreeGo, retryDelaySeconds, maxAttempts],
     by norm_num [hval, rmtreeGo, retryDelaySeconds, maxAttempts]⟩,
    ?_, by norm_num [retryDelaySeconds], ?_⟩
  · intro f hf
    simp only [maxAttempts] at hf
    interval_cases f <;>
      norm_num [rmtreeRetry, rmtreeGo, retryDelaySeconds, maxAttempts,
        Finset.sum_range_succ]
  · intro f hf
    simp only [maxAttempts] at hf
    have h0 : 0 < f := by omega
    have h1 : 1 < f := by omega
    have h2 : 2 < f := by omega
    have h3 : 3 < f := by omega
    have h4 : 4 < f := by omega
    simp only [rmtreeRetry, maxAttempts, rmtreeGo, if_pos h0, if_pos h1,
      if_pos h2, if_pos h3, if_pos h4]
    norm_num [retryDelaySeconds]
  · intro env args sel fs fs1 ops hrd hce
    have h2 : rmtreeRetry 2 = Except.ok 1 := by
      norm_num [hval, rmtreeGo, retryDelaySeconds, maxAttempts]
    simp [copyTo, hrd, h2, hce]

/-! ## Claim C3: the hardlink-identity short-circuit compares inodes only -/

/-- **C3 counterexample.** The claim states that the skip requires the full
identity key (device plus inode) to agree and that equal inodes on different
devices must not trigger the skip.  The code compares `st_ino` only: with a
destination occupant of identity `(1, 5)` and a source file of identity
`(2, 5)` (devices differ, inodes agree, `always_copy` false) the entry is
skipped entirely — the destination is unchanged and the only operation is the
skip. -/
theorem C3_counterexample_device_ignored :
    fsInoClash "x" = some (Node.file 1 5) ∧
    entInoClash.kind = EntryKind.file 2 5 ∧
    (1 : Nat) ≠ 2 ∧
    copyEntry envTrue argsNoRemove fsInoClash entInoClash
      = .ok (fsInoClash, [Op.skipOp "x"]) := by
  refine ⟨rfl, rfl, by decide, ?_⟩
  unfold copyEntry
  simp [destPath, existsAt, statIno, fsInoClash, setNode, emptyFS,
    argsNoRemove, entInoClash]

/-- **C3 (amended).** For a selected regular file, `copy_to` skips the entry
entirely (destination unchanged, the skip being the only operation) exactly
when the destination path exists, `always_copy` is false, and the
destination's **inode number** equals the source's inode number — the device
is not consulted. -/
theorem C3_skip_iff_inode_only (env : Env) (args : CopyArgs) (fs : DestFS)
    (e : Entry) (dev ino : Nat) (hk : e.kind = EntryKind.file dev ino) :
    copyEntry env args fs e = .ok (fs, [Op.skipOp (destPath args e)]) ↔
      (existsAt fs (destPath args e) && !args.always_copy
        && (statIno fs (destPath args e) == some ino)) = true := by
  obtain ⟨rp, k⟩ := e
  simp only at hk
  subst hk
  constructor
  · intro h
    by_contra hc
    rw [Bool.not_eq_true] at hc
    simp only [copyEntry, hc, Bool.false_eq_true, if_false] at h
    rcases hu : unlinkIfOccupied args fs (destPath args ⟨rp, .file dev ino⟩)
      with err | ⟨fs1, ops1⟩ <;> rw [hu] at h
    · exact Except.noConfusion h
    · simp only [] at h
      split at h
      · rw [Except.ok.injEq, Prod.mk.injEq] at h
        exact append_singleton_ne (by simp) h.2
      · split at h
        · rw [Except.ok.injEq, Prod.mk.injEq] at h
          exact append_singleton_ne (by simp) h.2
        · exact Except.noConfusion h
  · intro hc
    simp [copyEntry, hc]

/-- **C3 witness**: the amended skip characterization at the concrete
same-inode, different-device instance. -/
theorem C3_skip_iff_inode_only_witness :
    copyEntry envTrue argsNoRemove fsInoClash entInoClash
        = .ok (fsInoClash, [Op.skipOp (destPath argsNoRemove entInoClash)]) ↔
      (existsAt fsInoClash (destPath argsNoRemove entInoClash)
        && !argsNoRemove.always_copy
        && (statIno fsInoClash (destPath argsNoRemove entInoClash) == some 5))
        = true :=
  C3_skip_iff_inode_only envTrue argsNoRemove fsInoClash entInoClash 2 5 rfl

/-! ## Claim C7: symlink fidelity -/

/-- **C7.** A selected symlink entry materializes as a symlink at the
destination whose target is the literal target string read from the source
(the target is arbitrary and never resolved or copied); when not resetting
the destination, an occupant of the destination path is unlinked first, and
all parent directories exist afterwards; no other destination path is
disturbed. -/
theorem C7_symlink_fidelity (env : Env) (args : CopyArgs) (fs : DestFS)
    (e : Entry) (target : String)
    (hk : e.kind = EntryKind.symlink target)
    (hrd : args.remove_dest = false)
    (hnd : fs (destPath args e) ≠ some Node.dir) :
    ∃ fs', copyEntry env args fs e =
      .ok (fs',
        (if (fs (destPath args e)).isSome then [Op.unlinkOp (destPath args e)]
         else []) ++ [Op.symlinkOp target (destPath args e)]) ∧
      fs' (destPath args e) = some (Node.symlink target) ∧
      (∀ a ∈ ancestorsOf (destPath args e), (fs' a).isSome) ∧
      (∀ q, q ≠ destPath args e → ∀ n, fs q = some n → fs' q = some n) := by
  obtain ⟨rp, k⟩ := e
  simp only at hk
  subst hk
  have hu := unlinkIfOccupied_eq args fs (destPath args ⟨rp, .symlink target⟩)
    (Or.inl hnd)
  rw [hrd] at hu
  cases hocc : (fs (destPath args ⟨rp, .symlink target⟩)).isSome with
  | true =>
      rw [hocc] at hu
      simp only [Bool.not_false, Bool.and_self, eq_self_iff_true, if_true] at hu
      refine ⟨setNode
        (mkdirParents (removeNode fs (destPath args ⟨rp, .symlink target⟩))
          (destPath args ⟨rp, .symlink target⟩))
        (destPath args ⟨rp, .symlink target⟩) (Node.symlink target),
        ?_, ?_, ?_, ?_⟩
      · simp only [copyEntry]
        rw [hu]
        have h2 : ((mkdirParents
            (removeNode fs (destPath args ⟨rp, .symlink target⟩))
            (destPath args ⟨rp, .symlink target⟩))
            (destPath args ⟨rp, .symlink target⟩)).isSome = false := by
          rw [mkdirParents_self, removeNode_apply_self]
          rfl
        simp only [h2, Bool.false_eq_true, if_false, hocc, if_true]
      · exact setNode_apply_self _ _ _
      · intro a ha
        rw [setNode_apply_ne (ancestors_ne ha)]
        exact mkdirParents_ancestor ha
      · intro q hq n hn
        rw [setNode_apply_ne hq]
        exact mkdirParents_some (by rw [removeNode_apply_ne hq]; exact hn)
  | false =>
      rw [hocc] at hu
      simp only [Bool.not_false, Bool.and_false, Bool.true_and,
        Bool.false_eq_true, if_false] at hu
      refine ⟨setNode
        (mkdirParents fs (destPath args ⟨rp, .symlink target⟩))
        (destPath args ⟨rp, .symlink target⟩) (Node.symlink target),
        ?_, ?_, ?_, ?_⟩
      · simp only [copyEntry]
        rw [hu]
        have h2 : ((mkdirParents fs (destPath args ⟨rp, .symlink target⟩))
            (destPath args ⟨rp, .symlink target⟩)).isSome = false := by
          rw [mkdirParents_self]
          exact hocc
        simp only [h2, Bool.false_eq_true, if_false, hocc]
      · exact setNode_apply_self _ _ _
      · intro a ha
        rw [setNode_apply_ne (ancestors_ne ha)]
        exact mkdirParents_ancestor ha
      · intro q hq n hn
        rw [setNode_apply_ne hq]
        exact mkdirParents_some hn

/-- **C7 witness**: a symlink entry `"d/l" -> "missing-target"` into an empty
destination with `remove_dest=False`. -/
theorem C7_symlink_fidelity_witness :
    ∃ fs', copyEntry envTrue argsNoRemove emptyFS ⟨"d/l", .symlink "missing-target"⟩ =
      .ok (fs',
        (if (emptyFS (destPath argsNoRemove ⟨"d/l", .symlink "missing-target"⟩)).isSome
         then [Op.unlinkOp (destPath argsNoRemove ⟨"d/l", .symlink "missing-target"⟩)]
         else []) ++
          [Op.symlinkOp "missing-target"
            (destPath argsNoRemove ⟨"d/l", .symlink "missing-target"⟩)]) ∧
      fs' (destPath argsNoRemove ⟨"d/l", .symlink "missing-target"⟩)
        = some (Node.symlink "missing-target") ∧
      (∀ a ∈ ancestorsOf (destPath argsNoRemove ⟨"d/l", .symlink "missing-target"⟩),
        (fs' a).isSome) ∧
      (∀ q, q ≠ destPath argsNoRemove ⟨"d/l", .symlink "missing-target"⟩ →
        ∀ n, emptyFS q = some n → fs' q = some n) :=
  C7_symlink_fidelity envTrue argsNoRemove emptyFS
    ⟨"d/l", .symlink "missing-target"⟩ "missing-target" rfl rfl
    (by simp [emptyFS])

/-! ## Claim C8: hardlink failure silently falls back to copy -/

/-- **C8.** For a selected regular file with `always_copy` false that is not
skipped by the identity short-circuit (and whose conditional unlink does not
fail), when the `os.link` attempt fails the failure is not an error: the
entry falls back to `shutil.copy2`, materialization of the entry succeeds
exactly when the copy succeeds, and on success the operation log records a
copy (and no hardlink) at the destination path. -/
theorem C8_link_failure_copy_fallback (env : Env) (args : CopyArgs)
    (fs : DestFS) (e : Entry) (dev ino : Nat)
    (hk : e.kind = EntryKind.file dev ino)
    (hac : args.always_copy = false)
    (hskip : (existsAt fs (destPath args e) && !args.always_copy
        && (statIno fs (destPath args e) == some ino)) = false)
    (hnd : fs (destPath args e) ≠ some Node.dir)
    (hlink : env.linkOk (destPath args e) = false) :
    (copyEntry env args fs e).isOk = env.copyOk (destPath args e) ∧
    (env.copyOk (destPath args e) = true →
      ∃ fs' ops, copyEntry env args fs e = .ok (fs', ops) ∧
        Op.copyOp (destPath args e) ∈ ops ∧
        Op.linkOp (destPath args e) ∉ ops) ∧
    (env.copyOk (destPath args e) = false →
      copyEntry env args fs e
        = .error (CopyError.copyFailed (destPath args e))) := by
  obtain ⟨rp, k⟩ := e
  simp only at hk
  subst hk
  have hu := unlinkIfOccupied_eq args fs (destPath args ⟨rp, .file dev ino⟩)
    (Or.inl hnd)
  have hen : copyEntry env args fs ⟨rp, .file dev ino⟩ =
      (if env.copyOk (destPath args ⟨rp, .file dev ino⟩) = true then
        .ok (copy2At env
          (mkdirParents
            (if (!args.remove_dest
                  && (fs (destPath args ⟨rp, .file dev ino⟩)).isSome) = true
             then removeNode fs (destPath args ⟨rp, .file dev ino⟩) else fs)
            (destPath args ⟨rp, .file dev ino⟩))
          (destPath args ⟨rp, .file dev ino⟩) (baseNameOf rp),
          (if (!args.remove_dest
                && (fs (destPath args ⟨rp, .file dev ino⟩)).isSome) = true
           then [Op.unlinkOp (destPath args ⟨rp, .file dev ino⟩)] else [])
            ++ [Op.copyOp (destPath args ⟨rp, .file dev ino⟩)])
       else .error (CopyError.copyFailed (destPath args ⟨rp, .file dev ino⟩))) := by
    cases hcond : (!args.remove_dest
        && (fs (destPath args ⟨rp, .file dev ino⟩)).isSome) with
    | true =>
        rw [hcond] at hu
        simp only [eq_self_iff_true, if_true] at hu
        simp only [copyEntry, hskip, Bool.false_eq_true, if_false]
        rw [hu]
        simp only [hlink, Bool.and_false, Bool.false_eq_true, if_false,
          eq_self_iff_true, if_true]
    | false =>
        rw [hcond] at hu
        simp only [Bool.false_eq_true, if_false] at hu
        simp only [copyEntry, hskip, Bool.false_eq_true, if_false]
        rw [hu]
        simp only [hlink, Bool.and_false, Bool.false_eq_true, if_false]
  refine ⟨?_, ?_, ?_⟩
  · rw [hen]
    cases hc : env.copyOk (destPath args ⟨rp, .file dev ino⟩) with
    | true => simp [Except.isOk, Except.toBool]
    | false => simp [Except.isOk, Except.toBool]
  · intro hc
    rw [hen, if_pos hc]
    refine ⟨_, _, rfl, List.mem_append_right _ (List.mem_singleton_self _), ?_⟩
    intro hmem
    rcases List.mem_append.mp hmem with hmem | hmem
    · split at hmem
      · exact Op.noConfusion (List.mem_singleton.mp hmem)
      · cases hmem
    · exact Op.noConfusion (List.mem_singleton.mp hmem)
  · intro hc
    rw [hen, if_neg (by rw [hc]; exact Bool.false_ne_true)]

/-- **C8 witness**: a fresh regular file into an empty destination with a
failing `os.link`. -/
theorem C8_link_failure_copy_fallback_witness :
    ((copyEntry ⟨fun _ => false, fun _ => true, fun _ => (7, 77)⟩ argsNoRemove
        emptyFS ⟨"f", .file 1 2⟩).isOk
      = Env.copyOk ⟨fun _ => false, fun _ => true, fun _ => (7, 77)⟩
          (destPath argsNoRemove ⟨"f", .file 1 2⟩)) ∧
    (Env.copyOk ⟨fun _ => false, fun _ => true, fun _ => (7, 77)⟩
        (destPath argsNoRemove ⟨"f", .file 1 2⟩) = true →
      ∃ fs' ops, copyEntry ⟨fun _ => false, fun _ => true, fun _ => (7, 77)⟩
          argsNoRemove emptyFS ⟨"f", .file 1 2⟩ = .ok (fs', ops) ∧
        Op.copyOp (destPath argsNoRemove ⟨"f", .file 1 2⟩) ∈ ops ∧
        Op.linkOp (destPath argsNoRemove ⟨"f", .file 1 2⟩) ∉ ops) ∧
    (Env.copyOk ⟨fun _ => false, fun _ => true, fun _ => (7, 77)⟩
        (destPath argsNoRemove ⟨"f", .file 1 2⟩) = false →
      copyEntry ⟨fun _ => false, fun _ => true, fun _ => (7, 77)⟩ argsNoRemove
          emptyFS ⟨"f", .file 1 2⟩
        = .error (CopyError.copyFailed (destPath argsNoRemove ⟨"f", .file 1 2⟩))) :=
  C8_link_failure_copy_fallback ⟨fun _ => false, fun _ => true, fun _ => (7, 77)⟩
    argsNoRemove emptyFS ⟨"f", .file 1 2⟩ 1 2 rfl rfl (by decide)
    (by simp [emptyFS]) rfl

/-! ## Claim C2: idempotence of a second materialization pass -/

/-- **C2.** With `remove_dest=False`, `always_copy=False`, hardlinking always
available (same volume) and distinct destination paths, a successful first
`copy_to` pass that hardlinked every regular file makes a second pass with
the same arguments a no-op: it succeeds, leaves the destination tree in
exactly the same final state, and performs zero unlink/hardlink/copy
operations on the regular files — each is skipped by the hardlink-identity
check. -/
theorem C2_second_pass_idempotent (env : Env) (args : CopyArgs)
    (sel : List Entry) (fs0 fs1 : DestFS) (ops1 : List Op)
    (hrd : args.remove_dest = false)
    (hac : args.always_copy = false)
    (hlink : ∀ p, env.linkOk p = true)
    (hnodup : (sel.map (destPath args)).Nodup)
    (h1 : copyEntries env args sel fs0 = .ok (fs1, ops1))
    (hlinked : ∀ e ∈ sel, ∀ d i, e.kind = EntryKind.file d i →
      Op.linkOp (destPath args e) ∈ ops1) :
    ∃ ops2, copyEntries env args sel fs1 = .ok (fs1, ops2) ∧
      ∀ e ∈ sel, ∀ d i, e.kind = EntryKind.file d i →
        Op.unlinkOp (destPath args e) ∉ ops2 ∧
        Op.linkOp (destPath args e) ∉ ops2 ∧
        Op.copyOp (destPath args e) ∉ ops2 ∧
        Op.skipOp (destPath args e) ∈ ops2 := by
  have hall := copyEntries_settles_all hrd hac hlink sel fs0 fs1 ops1 h1 hnodup
  obtain ⟨ops2, h2, hchar, hskips⟩ :=
    @copyEntries_settled_id env args hrd hac sel fs1 hall
  refine ⟨ops2, h2, ?_⟩
  intro e he d i hdi
  have hmain : ∀ op, op ∈ ops2 → opPath op = some (destPath args e) →
      op = Op.skipOp (destPath args e) := by
    intro op hop hp
    obtain ⟨e', he', hp', hsk'⟩ := hchar op hop
    have heq : destPath args e' = destPath args e := by
      rw [hp'] at hp
      exact Option.some.inj hp
    have hee : e' = e := List.inj_on_of_nodup_map hnodup he' he heq
    subst hee
    exact hsk' d i hdi
  refine ⟨?_, ?_, ?_, hskips e he d i hdi⟩
  · intro hop
    exact Op.noConfusion (hmain _ hop rfl)
  · intro hop
    exact Op.noConfusion (hmain _ hop rfl)
  · intro hop
    exact Op.noConfusion (hmain _ hop rfl)

/-- Selection used by the C2 witness: a directory, a regular file inside it,
and a symlink. -/
def selC2 : List Entry :=
  [⟨"a", .dir⟩, ⟨"a/f.txt", .file 1 5⟩, ⟨"a/l", .symlink "f.txt"⟩]

def passC2 : Except CopyError (DestFS × List Op) :=
  copyEntries envTrue argsNoRemove selC2 emptyFS

def fsC2 : DestFS :=
  match passC2 with
  | .ok (f, _) => f
  | .error _ => emptyFS

def opsC2 : List Op :=
  match passC2 with
  | .ok (_, o) => o
  | .error _ => []

/-- **C2 witness**: the concrete three-entry selection materialized twice. -/
theorem C2_second_pass_idempotent_witness :
    ∃ ops2, copyEntries envTrue argsNoRemove selC2 fsC2 = .ok (fsC2, ops2) ∧
      ∀ e ∈ selC2, ∀ d i, e.kind = EntryKind.file d i →
        Op.unlinkOp (destPath argsNoRemove e) ∉ ops2 ∧
        Op.linkOp (destPath argsNoRemove e) ∉ ops2 ∧
        Op.copyOp (destPath argsNoRemove e) ∉ ops2 ∧
        Op.skipOp (destPath argsNoRemove e) ∈ ops2 :=
  C2_second_pass_idempotent envTrue argsNoRemove selC2 emptyFS fsC2 opsC2
    rfl rfl (fun _ => rfl) (by decide) rfl
    (by
      intro e he d i hdi
      fin_cases he
      · cases hdi
      · have hd : d = 1 := by
          cases hdi
          rfl
        have hi : i = 5 := by
          cases hdi
          rfl
        subst hd
        subst hi
        decide
      · cases hdi)

/-! ## Claim C10: frame property with `remove_dest=False` -/

/-- **C10.** With `remove_dest=False`, `copy_to` never removes or rewrites a
destination entry whose path is not the destination path (prefix plus
relative path) of some selected entry: every pre-existing node outside the
selected destination paths is unchanged after materialization. -/
theorem C10_outside_selection_unchanged (env : Env) (args : CopyArgs)
    (sel : List Entry) (fs0 fs1 : DestFS) (ops : List Op)
    (hrd : args.remove_dest = false)
    (hok : copyEntries env args sel fs0 = .ok (fs1, ops)) :
    ∀ q, (∀ e ∈ sel, q ≠ destPath args e) →
      ∀ n, fs0 q = some n → fs1 q = some n :=
  copyEntries_frame hrd sel fs0 fs1 ops hok

/-- Pre-existing destination content for the C10 witness. -/
def fsPre : DestFS :=
  setNode (setNode emptyFS "keep" Node.dir) "keep/data.txt" (Node.file 3 3)

def selC10 : List Entry := [⟨"f", .file 1 2⟩]

def passC10 : Except CopyError (DestFS × List Op) :=
  copyEntries envTrue argsNoRemove selC10 fsPre

def fsC10 : DestFS :=
  match passC10 with
  | .ok (f, _) => f
  | .error _ => emptyFS

/-- **C10 witness**: an unrelated pre-existing file survives a pass that
materializes a disjoint selection. -/
theorem C10_outside_selection_unchanged_witness :
    fsC10 "keep/data.txt" = some (Node.file 3 3) :=
  C10_outside_selection_unchanged envTrue argsNoRemove selC10 fsPre fsC10
    (match passC10 with
     | .ok (_, o) => o
     | .error _ => [])
    rfl rfl "keep/data.txt" (by decide) (Node.file 3 3) rfl

/-! ## Claim C9: destination contents after a reset materialization -/

/-- One `copy_to` step with `remove_dest=True`: it only touches the entry's
destination path and its ancestors (provided a directory does not occupy a
regular file's destination, which would make `shutil.copy2` copy *into* it),
materializes the entry's destination path, and never removes anything. -/
theorem copyEntry_remove_frame {env : Env} {args : CopyArgs} {fs : DestFS}
    {e : Entry} {fs' : DestFS} {ops : List Op}
    (hrd : args.remove_dest = true)
    (hvac : e.kind = EntryKind.dir ∨ fs (destPath args e) ≠ some Node.dir)
    (hok : copyEntry env args fs e = .ok (fs', ops)) :
    (∀ q, q ≠ destPath args e → q ∉ ancestorsOf (destPath args e) →
      fs' q = fs q) ∧
    (fs' (destPath args e)).isSome ∧
    (∀ q, (fs q).isSome → (fs' q).isSome) := by
  have hnou : unlinkIfOccupied args fs (destPath args e) = .ok (fs, []) := by
    unfold unlinkIfOccupied
    rw [hrd]
    simp
  rcases hk : e.kind with _ | t | ⟨dev, ino⟩
  · rw [copyEntry_dir hk] at hok
    rcases Except.ok.inj hok with h3
    obtain ⟨ha, -⟩ := Prod.mk.injEq .. ▸ h3
    subst ha
    refine ⟨?_, ?_, ?_⟩
    · intro q hq hqa
      unfold mkdirTree
      rw [mkdirStep_apply_ne hq, mkdirParents_not_mem hqa]
    · unfold mkdirTree mkdirStep
      split
      · assumption
      · rw [setNode_apply_self]
        rfl
    · intro q hq
      by_cases hqd : q = destPath args e
      · subst hqd
        unfold mkdirTree mkdirStep
        split
        · assumption
        · rw [setNode_apply_self]
          rfl
      · unfold mkdirTree
        rw [mkdirStep_apply_ne hqd]
        exact foldl_mkdirStep_isSome hq
  · obtain ⟨fs1, ops1, hu, -, hfs', -⟩ := copyEntry_symlink_inv hk hok
    rw [hnou] at hu
    rcases Except.ok.inj hu with h3
    obtain ⟨ha, -⟩ := Prod.mk.injEq .. ▸ h3
    subst ha
    subst hfs'
    refine ⟨?_, ?_, ?_⟩
    · intro q hq hqa
      rw [setNode_apply_ne hq, mkdirParents_not_mem hqa]
    · rw [setNode_apply_self]
      rfl
    · intro q hq
      by_cases hqd : q = destPath args e
      · subst hqd
        rw [setNode_apply_self]
        rfl
      · rw [setNode_apply_ne hqd]
        exact foldl_mkdirStep_isSome hq
  · have hnd : fs (destPath args e) ≠ some Node.dir := by
      rcases hvac with hvac | hvac
      · rw [hk] at hvac
        cases hvac
      · exact hvac
    cases hc : (existsAt fs (destPath args e) && !args.always_copy
        && (statIno fs (destPath args e) == some ino)) with
    | true =>
        rw [copyEntry_skip hk hc] at hok
        rcases Except.ok.inj hok with h3
        obtain ⟨ha, -⟩ := Prod.mk.injEq .. ▸ h3
        subst ha
        obtain ⟨d', hd'⟩ := skip_cond_occupant hc
        exact ⟨fun q _ _ => rfl, by rw [hd']; rfl, fun q hq => hq⟩
    | false =>
        obtain ⟨fs1, ops1, hu, hcase⟩ := copyEntry_file_inv hk hc hok
        rw [hnou] at hu
        rcases Except.ok.inj hu with h3
        obtain ⟨ha, -⟩ := Prod.mk.injEq .. ▸ h3
        subst ha
        have hnd2 : (mkdirParents fs (destPath args e)) (destPath args e)
            ≠ some Node.dir := by
          rw [mkdirParents_self]
          exact hnd
        rcases hcase with ⟨hfs', -, -⟩ | ⟨hfs', -, -⟩ <;> subst hfs'
        · refine ⟨?_, ?_, ?_⟩
          · intro q hq hqa
            rw [setNode_apply_ne hq, mkdirParents_not_mem hqa]
          · rw [setNode_apply_self]
            rfl
          · intro q hq
            by_cases hqd : q = destPath args e
            · subst hqd
              rw [setNode_apply_self]
              rfl
            · rw [setNode_apply_ne hqd]
              exact foldl_mkdirStep_isSome hq
        · rw [copy2At_not_dir hnd2]
          refine ⟨?_, ?_, ?_⟩
          · intro q hq hqa
            rw [setNode_apply_ne hq, mkdirParents_not_mem hqa]
          · rw [setNode_apply_self]
            rfl
          · intro q hq
            by_cases hqd : q = destPath args e
            · subst hqd
              rw [setNode_apply_self]
              rfl
            · rw [setNode_apply_ne hqd]
              exact foldl_mkdirStep_isSome hq

/-- The entry loop with `remove_dest=True`, on a tree-like selection (distinct
destination paths, no regular-file or symlink destination path an ancestor of
another destination path) starting from a state where the non-directory
destination paths are vacant: the final domain grows only into destination
paths and their ancestors, every selected entry is materialized, and presence
is monotone. -/
theorem copyEntries_remove_inv {env : Env} {args : CopyArgs}
    (hrd : args.remove_dest = true) :
    ∀ (sel : List Entry) (fs0 fs1 : DestFS) (ops : List Op),
      copyEntries env args sel fs0 = .ok (fs1, ops) →
      (sel.map (destPath args)).Nodup →
      (∀ e ∈ sel, e.kind ≠ EntryKind.dir →
        ∀ e' ∈ sel, destPath args e ∉ ancestorsOf (destPath args e')) →
      (∀ e ∈ sel, e.kind ≠ EntryKind.dir → fs0 (destPath args e) = none) →
      (∀ q, (fs1 q).isSome → (fs0 q).isSome ∨
        (∃ e ∈ sel, q = destPath args e) ∨
        (∃ e ∈ sel, q ∈ ancestorsOf (destPath args e))) ∧
      (∀ e ∈ sel, (fs1 (destPath args e)).isSome) ∧
      (∀ q, (fs0 q).isSome → (fs1 q).isSome) := by
  intro sel
  induction sel with
  | nil =>
      intro fs0 fs1 ops hok hnd htree hvac
      rcases Except.ok.inj hok with h3
      obtain ⟨ha, -⟩ := Prod.mk.injEq .. ▸ h3
      subst ha
      exact ⟨fun q hq => Or.inl hq, fun e he => absurd he (List.not_mem_nil e),
        fun q hq => hq⟩
  | cons e1 rest ih =>
      intro fs0 fs1 ops hok hnd htree hvac
      obtain ⟨fsa, opsa, opsb, h1, h2, -⟩ := copyEntries_cons_inv hok
      rw [List.map_cons, List.nodup_cons] at hnd
      obtain ⟨hn1, hn2⟩ := hnd
      have hvac1 : e1.kind = EntryKind.dir ∨
          fs0 (destPath args e1) ≠ some Node.dir := by
        by_cases hk1 : e1.kind = EntryKind.dir
        · exact Or.inl hk1
        · refine Or.inr ?_
          rw [hvac e1 (List.mem_cons_self e1 rest) hk1]
          simp
      obtain ⟨hframe, hdp, hpres⟩ := copyEntry_remove_frame hrd hvac1 h1
      have hvacR : ∀ e ∈ rest, e.kind ≠ EntryKind.dir →
          fsa (destPath args e) = none := by
        intro e he hke
        have hne : destPath args e ≠ destPath args e1 := by
          intro heq
          exact hn1 (heq ▸ List.mem_map_of_mem (destPath args) he)
        have hna : destPath args e ∉ ancestorsOf (destPath args e1) :=
          htree e (List.mem_cons_of_mem e1 he) hke e1
            (List.mem_cons_self e1 rest)
        rw [hframe _ hne hna]
        exact hvac e (List.mem_cons_of_mem e1 he) hke
      have htreeR : ∀ e ∈ rest, e.kind ≠ EntryKind.dir →
          ∀ e' ∈ rest, destPath args e ∉ ancestorsOf (destPath args e') := by
        intro e he hke e' he'
        exact htree e (List.mem_cons_of_mem e1 he) hke e'
          (List.mem_cons_of_mem e1 he')
      obtain ⟨hdomR, hmatR, hpresR⟩ := ih fsa fs1 opsb h2 hn2 htreeR hvacR
      refine ⟨?_, ?_, ?_⟩
      · intro q hq
        rcases hdomR q hq with hq1 | hq1 | hq1
        · by_cases hqd : q = destPath args e1
          · exact Or.inr (Or.inl ⟨e1, List.mem_cons_self e1 rest, hqd⟩)
          · by_cases hqa : q ∈ ancestorsOf (destPath args e1)
            · exact Or.inr (Or.inr ⟨e1, List.mem_cons_self e1 rest, hqa⟩)
            · rw [hframe q hqd hqa] at hq1
              exact Or.inl hq1
        · obtain ⟨e, he, hqe⟩ := hq1
          exact Or.inr (Or.inl ⟨e, List.mem_cons_of_mem e1 he, hqe⟩)
        · obtain ⟨e, he, hqe⟩ := hq1
          exact Or.inr (Or.inr ⟨e, List.mem_cons_of_mem e1 he, hqe⟩)
      · intro e he
        rcases List.mem_cons.mp he with he1 | he1
        · subst he1
          exact hpresR _ hdp
        · exact hmatR e he1
      · intro q hq
        exact hpresR q (hpres q hq)

/-- Inversion of a successful `copy_to` with destination reset. -/
theorem copyTo_remove_inv {env : Env} {args : CopyArgs} {permFails : Nat}
    {sel : List Entry} {fs0 fs1 : DestFS} {ops : List Op} {w : ℚ}
    (hrd : args.remove_dest = true)
    (hok : copyTo env args permFails sel true fs0 = .ok (fs1, ops, w)) :
    ∃ ops', copyEntries env args sel emptyFS = .ok (fs1, ops') := by
  unfold copyTo at hok
  rw [hrd] at hok
  simp only [Bool.true_and, if_true] at hok
  rcases hr : rmtreeRetry permFails with w' | w' <;> rw [hr] at hok
  · exact Except.noConfusion hok
  · rcases hc : copyEntries env args sel emptyFS with err | ⟨f, o⟩ <;>
      rw [hc] at hok
    · exact Except.noConfusion hok
    · rcases Except.ok.inj hok with h3
      obtain ⟨ha, -⟩ := Prod.mk.injEq .. ▸ h3
      exact ⟨o, by rw [ha]⟩

/-- **C9 counterexample.** The claim says no entry appears at the destination
whose relative path was not accepted by the predicate.  With
`includes=["a/b.txt"]` over the tree `{a (dir), a/b.txt (file)}`, the
predicate rejects `"a"`, yet after a successful reset materialization the
destination contains the directory `"a"` (created by
`destpath.parent.mkdir(parents=True)`). -/
theorem C9_counterexample_parent_dirs :
    (MatchPredicate.ofGlobs ["a/b.txt"] [] []).matches "a" = false ∧
    (selectEntries (MatchPredicate.ofGlobs ["a/b.txt"] [] [])
      [⟨"a", .dir⟩, ⟨"a/b.txt", .file 1 5⟩]).map Entry.relpath = ["a/b.txt"] ∧
    (match copyTo envTrue argsRemove 0
        (selectEntries (MatchPredicate.ofGlobs ["a/b.txt"] [] [])
          [⟨"a", .dir⟩, ⟨"a/b.txt", .file 1 5⟩]) true emptyFS with
     | .ok (f, _, _) => f "a"
     | .error _ => none) = some Node.dir := by
  refine ⟨by decide, by decide, by decide⟩

/-- **C9 (amended).** After a successful `copy_to` with `remove_dest=True`
(over a tree-like selection: distinct destination paths, no file or symlink
destination path an ancestor of another), the destination contains exactly
the selected entries *plus the ancestor directories of their destination
paths*: every present path is a selected destination path or an ancestor of
one (so any pre-existing unrelated file is absent), and every selected entry
is materialized at its destination path. -/
theorem C9_exact_contents_with_ancestors (env : Env) (args : CopyArgs)
    (permFails : Nat) (sel : List Entry) (fs0 fs1 : DestFS) (ops : List Op)
    (w : ℚ)
    (hrd : args.remove_dest = true)
    (hnodup : (sel.map (destPath args)).Nodup)
    (htree : ∀ e ∈ sel, e.kind ≠ EntryKind.dir →
      ∀ e' ∈ sel, destPath args e ∉ ancestorsOf (destPath args e'))
    (hok : copyTo env args permFails sel true fs0 = .ok (fs1, ops, w)) :
    (∀ q, (fs1 q).isSome →
      (∃ e ∈ sel, q = destPath args e) ∨
      (∃ e ∈ sel, q ∈ ancestorsOf (destPath args e))) ∧
    (∀ e ∈ sel, (fs1 (destPath args e)).isSome) := by
  obtain ⟨ops', hce⟩ := copyTo_remove_inv hrd hok
  obtain ⟨hdom, hmat, -⟩ := copyEntries_remove_inv hrd sel emptyFS fs1 ops' hce
    hnodup htree (fun e _ _ => rfl)
  refine ⟨?_, hmat⟩
  intro q hq
  rcases hdom q hq with hq1 | hq1 | hq1
  · cases hq1
  · exact Or.inl hq1
  · exact Or.inr hq1

def selC9 : List Entry :=
  selectEntries (MatchPredicate.ofGlobs ["a/b.txt"] [] [])
    [⟨"a", .dir⟩, ⟨"a/b.txt", .file 1 5⟩]

def runC9 : Except CopyError (DestFS × List Op × ℚ) :=
  copyTo envTrue argsRemove 0 selC9 true emptyFS

def fsC9 : DestFS :=
  match runC9 with
  | .ok (f, _, _) => f
  | .error _ => emptyFS

/-- **C9 witness**: the amended statement at the concrete selection of the
counterexample. -/
theorem C9_exact_contents_with_ancestors_witness :
    (∀ q, (fsC9 q).isSome →
      (∃ e ∈ selC9, q = destPath argsRemove e) ∨
      (∃ e ∈ selC9, q ∈ ancestorsOf (destPath argsRemove e))) ∧
    (∀ e ∈ selC9, (fsC9 (destPath argsRemove e)).isSome) :=
  C9_exact_contents_with_ancestors envTrue argsRemove 0 selC9 emptyFS fsC9
    (match runC9 with
     | .ok (_, o, _) => o
     | .error _ => [])
    (match runC9 with
     | .ok (_, _, w) => w
     | .error _ => 0)
    rfl (by decide) (by decide) rfl

end TheRock
